import Mathlib

/-!
# Verification of the `uniqr` line-deduplication core (src/lib.rs, src/error.rs)

Shallow embedding of the deduplication engine of the `uniqr` repository.
Bytes are `Nat` (values < 256 in practice), an input stream is a `List Nat`,
the output sink is the list of bytes written to it.  Stateful loops from the
Rust source become explicit state-passing recursions; the `sled` disk store
becomes an association list (the model of a key-value store: `get` returns
the last value `insert`-ed for a key, `len` the number of distinct keys —
`HashMap` is modelled the same way; every use in the source is
iteration-order insensitive).  Fallible Rust functions return `Except`;
infallible I/O against in-memory buffers is modelled as pure.  The
`disk-backed` cargo feature is modelled as compiled in, matching the spec,
which treats the disk engine as part of the core.
-/

set_option autoImplicit false

deriving instance DecidableEq for Except

namespace Uniqr

/-- Bytes of the removal marker `"[REMOVED] "` written by `write!(output, "[REMOVED] ")`. -/
def marker : List Nat := [91, 82, 69, 77, 79, 86, 69, 68, 93, 32]

/-- `enum Error` from src/error.rs (the `Io` payload is reduced to its message). -/
inductive Error where
  | Io (msg : String)
  | InvalidArgument (msg : String)
  | Utf8Error (msg : String)
  deriving DecidableEq

/-- `enum DeduplicationMode` from src/lib.rs. -/
inductive DeduplicationMode where
  | KeepFirst
  | KeepLast
  | RemoveAll
  deriving DecidableEq

/-- `struct DeduplicationOptions` from src/lib.rs. -/
structure DeduplicationOptions where
  mode : DeduplicationMode
  ignore_case : Bool
  count : Bool
  show_removed : Bool
  column : Option Nat
  use_disk : Bool
  deriving DecidableEq

/-- `DeduplicationOptions::default()`. -/
def defaultOptions : DeduplicationOptions :=
  { mode := .KeepFirst, ignore_case := false, count := false,
    show_removed := false, column := none, use_disk := false }

/-- `struct DeduplicationStats` from src/lib.rs. -/
structure DeduplicationStats where
  lines_read : Nat
  lines_written : Nat
  lines_removed : Nat
  unique_lines : Nat
  deriving DecidableEq

/-- Result of one engine run: the statistics plus the bytes written to the sink. -/
structure DedupRun where
  stats : DeduplicationStats
  output : List Nat
  deriving DecidableEq

/-! ## Line source adapter: `BufRead::read_until(b'\n', ..)` loop

Each chunk contains its bytes up to and including the `\n` delimiter; a final
chunk without delimiter is produced for an unterminated last line. -/

/-- Splitting loop; `acc` holds the bytes of the current chunk in reverse. -/
def readLinesAux (acc : List Nat) : List Nat → List (List Nat)
  | [] => if acc.isEmpty then [] else [acc.reverse]
  | b :: rest =>
    if b = 10 then (acc.reverse ++ [10]) :: readLinesAux [] rest
    else readLinesAux (b :: acc) rest

/-- The sequence of lines the `read_until(b'\n', ..)` loop yields for a byte stream. -/
def readLines (input : List Nat) : List (List Nat) := readLinesAux [] input

/-- The `key_line` computation repeated in every engine: strip a trailing
`\n`, or a trailing `\r\n`, from a raw line; anything else is untouched. -/
def stripTerm (line : List Nat) : List Nat :=
  if line.getLast? = some 10 then
    if line.dropLast.getLast? = some 13 then line.dropLast.dropLast
    else line.dropLast
  else line

/-! ## UTF-8 (model of `std::str` / `String::from_utf8_lossy`) -/

/-- Is a byte a UTF-8 continuation byte (`0x80..=0xBF`)? -/
def isCont (b : Nat) : Bool := 128 ≤ b && b ≤ 191

/-- Strict UTF-8 decoding to code points; `none` exactly on the inputs
`std::str::from_utf8` rejects (overlong forms, surrogates, values beyond
U+10FFFF, truncated sequences).  The fuel argument only bounds recursion
depth; every step consumes at least one byte, so fuel `length + 1` is never
exhausted. -/
def utf8DecodeAux : Nat → List Nat → Option (List Nat)
  | 0, _ => none
  | _ + 1, [] => some []
  | fuel + 1, b :: rest =>
    if b < 128 then (utf8DecodeAux fuel rest).map (b :: ·)
    else if 194 ≤ b && b ≤ 223 then
      match rest with
      | c :: r =>
        if isCont c then (utf8DecodeAux fuel r).map (((b - 192) * 64 + (c - 128)) :: ·)
        else none
      | [] => none
    else if 224 ≤ b && b ≤ 239 then
      match rest with
      | c1 :: r1 =>
        if (b = 224 && 160 ≤ c1 && c1 ≤ 191) ||
           (225 ≤ b && b ≤ 236 && isCont c1) ||
           (b = 237 && 128 ≤ c1 && c1 ≤ 159) ||
           (238 ≤ b && b ≤ 239 && isCont c1) then
          match r1 with
          | c2 :: r2 =>
            if isCont c2 then
              (utf8DecodeAux fuel r2).map
                (((b - 224) * 4096 + (c1 - 128) * 64 + (c2 - 128)) :: ·)
            else none
          | [] => none
        else none
      | [] => none
    else if 240 ≤ b && b ≤ 244 then
      match rest with
      | c1 :: r1 =>
        if (b = 240 && 144 ≤ c1 && c1 ≤ 191) ||
           (241 ≤ b && b ≤ 243 && isCont c1) ||
           (b = 244 && 128 ≤ c1 && c1 ≤ 143) then
          match r1 with
          | c2 :: r2 =>
            if isCont c2 then
              match r2 with
              | c3 :: r3 =>
                if isCont c3 then
                  (utf8DecodeAux fuel r3).map
                    (((b - 240) * 262144 + (c1 - 128) * 4096 +
                      (c2 - 128) * 64 + (c3 - 128)) :: ·)
                else none
              | [] => none
            else none
          | [] => none
        else none
      | [] => none
    else none

/-- Strict UTF-8 decoding with sufficient fuel. -/
def utf8Decode? (bs : List Nat) : Option (List Nat) := utf8DecodeAux (bs.length + 1) bs

/-- `std::str::from_utf8(..).is_ok()` for a byte sequence. -/
def utf8Valid (bs : List Nat) : Bool := (utf8Decode? bs).isSome

/-- Lossy UTF-8 decoding to code points, as `String::from_utf8_lossy`:
each maximal invalid subsequence becomes one U+FFFD (65533) per the
substitution-of-maximal-subparts rule Rust implements (a valid prefix of a
longer sequence is consumed together with its replacement).  Fuel as in
`utf8DecodeAux`. -/
def utf8LossyAux : Nat → List Nat → List Nat
  | 0, _ => []
  | _ + 1, [] => []
  | fuel + 1, b :: rest =>
    if b < 128 then b :: utf8LossyAux fuel rest
    else if 194 ≤ b && b ≤ 223 then
      match rest with
      | c :: r =>
        if isCont c then ((b - 192) * 64 + (c - 128)) :: utf8LossyAux fuel r
        else 65533 :: utf8LossyAux fuel rest
      | [] => [65533]
    else if 224 ≤ b && b ≤ 239 then
      match rest with
      | c1 :: r1 =>
        if (b = 224 && 160 ≤ c1 && c1 ≤ 191) ||
           (225 ≤ b && b ≤ 236 && isCont c1) ||
           (b = 237 && 128 ≤ c1 && c1 ≤ 159) ||
           (238 ≤ b && b ≤ 239 && isCont c1) then
          match r1 with
          | c2 :: r2 =>
            if isCont c2 then
              ((b - 224) * 4096 + (c1 - 128) * 64 + (c2 - 128)) :: utf8LossyAux fuel r2
            else 65533 :: utf8LossyAux fuel r1
          | [] => [65533]
        else 65533 :: utf8LossyAux fuel rest
      | [] => [65533]
    else if 240 ≤ b && b ≤ 244 then
      match rest with
      | c1 :: r1 =>
        if (b = 240 && 144 ≤ c1 && c1 ≤ 191) ||
           (241 ≤ b && b ≤ 243 && isCont c1) ||
           (b = 244 && 128 ≤ c1 && c1 ≤ 143) then
          match r1 with
          | c2 :: r2 =>
            if isCont c2 then
              match r2 with
              | c3 :: r3 =>
                if isCont c3 then
                  ((b - 240) * 262144 + (c1 - 128) * 4096 +
                    (c2 - 128) * 64 + (c3 - 128)) :: utf8LossyAux fuel r3
                else 65533 :: utf8LossyAux fuel r2
              | [] => [65533]
            else 65533 :: utf8LossyAux fuel r1
          | [] => [65533]
        else 65533 :: utf8LossyAux fuel rest
      | [] => [65533]
    else 65533 :: utf8LossyAux fuel rest

/-- Lossy UTF-8 decoding with sufficient fuel. -/
def utf8Lossy (bs : List Nat) : List Nat := utf8LossyAux (bs.length + 1) bs

/-- UTF-8 encoding of one code point (`char` / `str::as_bytes`). -/
def encodeCp (c : Nat) : List Nat :=
  if c < 128 then [c]
  else if c < 2048 then [192 + c / 64, 128 + c % 64]
  else if c < 65536 then [224 + c / 4096, 128 + c / 64 % 64, 128 + c % 64]
  else [240 + c / 262144, 128 + c / 4096 % 64, 128 + c / 64 % 64, 128 + c % 64]

/-- Concatenation of a list of byte lists. -/
def flat : List (List Nat) → List Nat
  | [] => []
  | x :: xs => x ++ flat xs

/-- UTF-8 encoding of a code-point sequence. -/
def utf8Encode (cps : List Nat) : List Nat := flat (cps.map encodeCp)

/-- Rust `char::is_whitespace`: the Unicode White_Space code points. -/
def isWS (c : Nat) : Bool :=
  (9 ≤ c && c ≤ 13) || c = 32 || c = 133 || c = 160 || c = 5760 ||
  (8192 ≤ c && c ≤ 8202) || c = 8232 || c = 8233 || c = 8239 || c = 8287 || c = 12288

/-- Splitting loop for `str::split_whitespace`; `cur` holds the current
token's code points in reverse. -/
def splitWSAux (cur : List Nat) : List Nat → List (List Nat)
  | [] => if cur.isEmpty then [] else [cur.reverse]
  | c :: cs =>
    if isWS c then
      if cur.isEmpty then splitWSAux [] cs
      else cur.reverse :: splitWSAux [] cs
    else splitWSAux (c :: cur) cs

/-- `str::split_whitespace`: maximal runs of non-whitespace, empties dropped. -/
def splitWS (cps : List Nat) : List (List Nat) := splitWSAux [] cps

/-- One code point of Rust's `str::to_lowercase`.  Modelled for the ASCII
range (`A`-`Z` map down by 32); outside ASCII the full Unicode lowercase
tables are out of scope of this development and code points are kept
unchanged.  No claim below depends on non-ASCII case folding. -/
def lowerCp (c : Nat) : Nat := if 65 ≤ c && c ≤ 90 then c + 32 else c

/-! ## Key deriver: `make_key` (src/lib.rs:397-423) -/

/-- The `data` binding of `make_key`: optional column extraction.  The source
decodes the line with `String::from_utf8_lossy`, splits on whitespace, and
takes the `col_idx`-th (1-based) token's bytes when in range, the whole line
otherwise. -/
def columnData (line : List Nat) (options : DeduplicationOptions) : List Nat :=
  match options.column with
  | some colIdx =>
    let cols := splitWS (utf8Lossy line)
    if 0 < colIdx && colIdx ≤ cols.length then utf8Encode (cols.getD (colIdx - 1) [])
    else line
  | none => line

/-- `fn make_key(line, options) -> Result<Vec<u8>>` (src/lib.rs:397-423).
With `ignore_case`, a successful UTF-8 decode is lowercased; a decode
failure falls back to the raw bytes.  Every path returns `Ok`. -/
def make_key (line : List Nat) (options : DeduplicationOptions) : Except Error (List Nat) :=
  let data := columnData line options
  if options.ignore_case then
    match utf8Decode? data with
    | some cps => Except.ok (utf8Encode (cps.map lowerCp))
    | none => Except.ok data
  else
    Except.ok data

/-- Total extraction of `make_key`'s value; `make_key` is `Ok` on every input
(`make_key_total` below), so the engines, which propagate its `Result` with
`?`, are modelled with this total function. -/
def makeKey (line : List Nat) (options : DeduplicationOptions) : List Nat :=
  match make_key line options with
  | Except.ok k => k
  | Except.error _ => []

/-- The key an engine derives for a raw line: terminator stripped, then `make_key`. -/
def keyOf (options : DeduplicationOptions) (line : List Nat) : List Nat :=
  makeKey (stripTerm line) options

/-! ## Association list: model of `HashMap` and of a `sled` tree -/

/-- Lookup (`HashMap::get` / `sled::Db::get`). -/
def alGet {α : Type} (k : List Nat) : List (List Nat × α) → Option α
  | [] => none
  | (k', v) :: rest => if k' = k then some v else alGet k rest

/-- Insert-or-replace (`HashMap::insert` / `sled::Db::insert`); keeps one
entry per key, so `List.length` is the map's size (`len`). -/
def alInsert {α : Type} (k : List Nat) (v : α) : List (List Nat × α) → List (List Nat × α)
  | [] => [(k, v)]
  | (k', v') :: rest => if k' = k then (k, v) :: rest else (k', v') :: alInsert k v rest

/-! ## Number formatting: `write!(output, "{:>7} ", n)` -/

/-- Decimal digit characters of `n`; the fuel argument bounds recursion depth
and `n + 1` always suffices since `n / 10 < n` for `n ≥ 10`. -/
def decDigitsAux : Nat → Nat → List Nat
  | 0, _ => []
  | fuel + 1, n =>
    if n < 10 then [48 + n]
    else decDigitsAux fuel (n / 10) ++ [48 + n % 10]

/-- ASCII decimal representation of a natural number. -/
def decDigits (n : Nat) : List Nat := decDigitsAux (n + 1) n

/-- Bytes of `write!("{:>7} ", n)`: the decimal right-justified to width 7
with spaces, then one space. -/
def fmtCount (n : Nat) : List Nat :=
  List.replicate (7 - (decDigits n).length) 32 ++ decDigits n ++ [32]

/-! ## In-memory engine (src/lib.rs:147-394) -/

/-- Loop state of `deduplicate_keep_first`: the `seen` count map, the
deferred `lines_for_count` buffer, the sink, and the counters. -/
structure KFState where
  seen : List (List Nat × Nat)
  pend : List (List Nat)
  out : List Nat
  read : Nat
  written : Nat
  removed : Nat

/-- Main loop of `deduplicate_keep_first` (src/lib.rs:164-198): per line,
bump the key's count; a first occurrence is written (or deferred when
counting), a repeat is removed (and shown when `show_removed`). -/
def kfLoop (options : DeduplicationOptions) : List (List Nat) → KFState → KFState
  | [], st => st
  | l :: ls, st =>
    let k := keyOf options l
    let c := (alGet k st.seen).getD 0 + 1
    let seen' := alInsert k c st.seen
    if c = 1 then
      kfLoop options ls
        { seen := seen'
          pend := if options.count then st.pend ++ [l] else st.pend
          out := if options.count then st.out else st.out ++ l
          read := st.read + 1, written := st.written + 1, removed := st.removed }
    else
      kfLoop options ls
        { seen := seen'
          pend := st.pend
          out := if options.show_removed then st.out ++ marker ++ l else st.out
          read := st.read + 1, written := st.written, removed := st.removed + 1 }

/-- Count-replay of `deduplicate_keep_first` (src/lib.rs:203-226): each
deferred line is re-stripped and re-keyed (the unused unstripped
`make_key` call of line 205 is infallible and dropped here); a found count
is written as `"{:>7} "` then the raw line. -/
def kfReplay (options : DeduplicationOptions) (seen : List (List Nat × Nat)) :
    List (List Nat) → List Nat
  | [] => []
  | l :: ls =>
    (match alGet (keyOf options l) seen with
     | some c => fmtCount c ++ l
     | none => []) ++ kfReplay options seen ls

/-- `fn deduplicate_keep_first` (src/lib.rs:147-229). -/
def dedupKeepFirst (input : List Nat) (options : DeduplicationOptions) : DedupRun :=
  let st := kfLoop options (readLines input) ⟨[], [], [], 0, 0, 0⟩
  { stats :=
      { lines_read := st.read, lines_written := st.written,
        lines_removed := st.removed, unique_lines := st.seen.length }
    output := st.out ++ if options.count then kfReplay options st.seen st.pend else [] }

/-- Pass-1 state of `deduplicate_keep_last`: the `last_occurrence` map
(key to latest index and line copy), the buffered lines, `lines_read`. -/
structure KLState where
  m : List (List Nat × (Nat × List Nat))
  lines : List (List Nat)
  read : Nat

/-- Pass 1 of `deduplicate_keep_last` (src/lib.rs:250-268): record each
key's latest occurrence index (the `lines_read - 1` of the moment) with a
copy of its line, buffering all lines. -/
def klPass1 (options : DeduplicationOptions) : List (List Nat) → KLState → KLState
  | [], st => st
  | l :: ls, st =>
    klPass1 options ls
      { m := alInsert (keyOf options l) (st.read, l) st.m
        lines := st.lines ++ [l]
        read := st.read + 1 }

/-- Pass 2 of `deduplicate_keep_last` (src/lib.rs:276-316): a line is kept
iff its index is in the kept set; a kept line under `count` is prefixed by
the number of buffered lines whose key equals its own. -/
def klPass2 (options : DeduplicationOptions) (all : List (List Nat)) (keptIdx : List Nat) :
    Nat → List (List Nat) → List Nat × Nat × Nat
  | _, [] => ([], 0, 0)
  | i, l :: ls =>
    let (o, w, r) := klPass2 options all keptIdx (i + 1) ls
    if keptIdx.contains i then
      let pfx :=
        if options.count then
          fmtCount (all.countP (fun l2 => keyOf options l2 == keyOf options l))
        else []
      (pfx ++ l ++ o, w + 1, r)
    else
      ((if options.show_removed then marker ++ l else []) ++ o, w, r + 1)

/-- `fn deduplicate_keep_last` (src/lib.rs:232-319). -/
def dedupKeepLast (input : List Nat) (options : DeduplicationOptions) : DedupRun :=
  let p := klPass1 options (readLines input) ⟨[], [], 0⟩
  let keptIdx := p.m.map (fun e => e.2.1)
  let (o, w, r) := klPass2 options p.lines keptIdx 0 p.lines
  { stats :=
      { lines_read := p.read, lines_written := w,
        lines_removed := r, unique_lines := p.m.length }
    output := o }

/-- Pass-1 state of `deduplicate_remove_all`: the occurrence-count map, the
buffered lines, `lines_read`. -/
structure RAState where
  counts : List (List Nat × Nat)
  lines : List (List Nat)
  read : Nat

/-- Pass 1 of `deduplicate_remove_all` (src/lib.rs:340-358). -/
def raPass1 (options : DeduplicationOptions) : List (List Nat) → RAState → RAState
  | [], st => st
  | l :: ls, st =>
    let k := keyOf options l
    raPass1 options ls
      { counts := alInsert k ((alGet k st.counts).getD 0 + 1) st.counts
        lines := st.lines ++ [l]
        read := st.read + 1 }

/-- Pass 2 of `deduplicate_remove_all` (src/lib.rs:364-391): keep exactly
the lines whose key's total count is 1. -/
def raPass2 (options : DeduplicationOptions) (counts : List (List Nat × Nat)) :
    List (List Nat) → List Nat × Nat × Nat
  | [] => ([], 0, 0)
  | l :: ls =>
    let (o, w, r) := raPass2 options counts ls
    let c := (alGet (keyOf options l) counts).getD 0
    if c = 1 then
      ((if options.count then fmtCount c else []) ++ l ++ o, w + 1, r)
    else
      ((if options.show_removed then marker ++ l else []) ++ o, w, r + 1)

/-- `fn deduplicate_remove_all` (src/lib.rs:322-394). -/
def dedupRemoveAll (input : List Nat) (options : DeduplicationOptions) : DedupRun :=
  let p := raPass1 options (readLines input) ⟨[], [], 0⟩
  let (o, w, r) := raPass2 options p.counts p.lines
  { stats :=
      { lines_read := p.read, lines_written := w, lines_removed := r,
        unique_lines := (p.counts.map Prod.snd).countP (fun c => c == 1) }
    output := o }

/-! ## Disk-backed engine (src/lib.rs:427-756)

The `sled` store holds byte-list values; counts and indices are stored as
little-endian 64-bit fields, so arithmetic on them wraps at `2 ^ 64` like
the `u64` values of the source (release-mode wrap-around semantics). -/

/-- `u64::to_le_bytes` of `n` (as a `u64`, i.e. of `n % 2 ^ 64`). -/
def encodeLE64 (n : Nat) : List Nat :=
  [n % 256, n / 256 % 256, n / 65536 % 256, n / 16777216 % 256,
   n / 4294967296 % 256, n / 1099511627776 % 256,
   n / 281474976710656 % 256, n / 72057594037927936 % 256]

/-- `u64::from_le_bytes` of a byte list (little-endian place values). -/
def decodeLE64 (bs : List Nat) : Nat := bs.foldr (fun b acc => acc * 256 + b) 0

/-- Loop state of `deduplicate_keep_first_disk`: as `KFState`, but the seen
counts live in the store as 8-byte values. -/
structure KFDiskState where
  db : List (List Nat × List Nat)
  pend : List (List Nat)
  out : List Nat
  read : Nat
  written : Nat
  removed : Nat

/-- Main loop of `deduplicate_keep_first_disk` (src/lib.rs:445-493): the
running count is read-modify-written through the store as a little-endian
u64. -/
def kfDiskLoop (options : DeduplicationOptions) : List (List Nat) → KFDiskState → KFDiskState
  | [], st => st
  | l :: ls, st =>
    let k := keyOf options l
    let c := match alGet k st.db with
      | some existing => (decodeLE64 existing + 1) % 18446744073709551616
      | none => 1
    let db' := alInsert k (encodeLE64 c) st.db
    if c = 1 then
      kfDiskLoop options ls
        { db := db'
          pend := if options.count then st.pend ++ [l] else st.pend
          out := if options.count then st.out else st.out ++ l
          read := st.read + 1, written := st.written + 1, removed := st.removed }
    else
      kfDiskLoop options ls
        { db := db'
          pend := st.pend
          out := if options.show_removed then st.out ++ marker ++ l else st.out
          read := st.read + 1, written := st.written, removed := st.removed + 1 }

/-- Count-replay of `deduplicate_keep_first_disk` (src/lib.rs:498-512).
NOTE: faithfully to the source, the lookup key is built from the deferred
line WITHOUT stripping its terminator (`make_key(&line, options)`), unlike
the in-memory replay; a miss writes nothing. -/
def kfDiskReplay (options : DeduplicationOptions) (db : List (List Nat × List Nat)) :
    List (List Nat) → List Nat
  | [] => []
  | l :: ls =>
    (match alGet (makeKey l options) db with
     | some countBytes => fmtCount (decodeLE64 countBytes) ++ l
     | none => []) ++ kfDiskReplay options db ls

/-- `fn deduplicate_keep_first_disk` (src/lib.rs:427-515). -/
def dedupKeepFirstDisk (input : List Nat) (options : DeduplicationOptions) : DedupRun :=
  let st := kfDiskLoop options (readLines input) ⟨[], [], [], 0, 0, 0⟩
  { stats :=
      { lines_read := st.read, lines_written := st.written,
        lines_removed := st.removed, unique_lines := st.db.length }
    output := st.out ++ if options.count then kfDiskReplay options st.db st.pend else [] }

/-- Pass 1 of `deduplicate_keep_last_disk` (src/lib.rs:534-583): per key a
16-byte value, 8 bytes of last-seen line index then 8 bytes of running
count; `i` is both the `enumerate` index and `lines_read`. -/
def klDiskPass1 (options : DeduplicationOptions) :
    List (List Nat) → Nat → List (List Nat × List Nat) → List (List Nat × List Nat) × Nat
  | [], i, db => (db, i)
  | l :: ls, i, db =>
    let k := keyOf options l
    let c := match alGet k db with
      | some existing =>
        if existing.length = 16 then (decodeLE64 (existing.drop 8) + 1) % 18446744073709551616
        else 1
      | none => 1
    klDiskPass1 options ls (i + 1) (alInsert k (encodeLE64 i ++ encodeLE64 c) db)

/-- Pass 2 of `deduplicate_keep_last_disk` (src/lib.rs:588-642): keep a line
iff its index (as a u64) equals the stored last index; a store miss or a
non-16-byte value silently does nothing, as in the source. -/
def klDiskPass2 (options : DeduplicationOptions) (db : List (List Nat × List Nat)) :
    Nat → List (List Nat) → List Nat × Nat × Nat
  | _, [] => ([], 0, 0)
  | i, l :: ls =>
    let (o, w, r) := klDiskPass2 options db (i + 1) ls
    match alGet (keyOf options l) db with
    | some v =>
      if v.length = 16 then
        if i % 18446744073709551616 = decodeLE64 (v.take 8) then
          (((if options.count then fmtCount (decodeLE64 (v.drop 8)) else []) ++ l) ++ o, w + 1, r)
        else
          ((if options.show_removed then marker ++ l else []) ++ o, w, r + 1)
      else (o, w, r)
    | none => (o, w, r)

/-- `fn deduplicate_keep_last_disk` (src/lib.rs:519-645); the second pass
re-reads the seekable input from its start, i.e. the same line sequence. -/
def dedupKeepLastDisk (input : List Nat) (options : DeduplicationOptions) : DedupRun :=
  let (db, read) := klDiskPass1 options (readLines input) 0 []
  let (o, w, r) := klDiskPass2 options db 0 (readLines input)
  { stats :=
      { lines_read := read, lines_written := w, lines_removed := r,
        unique_lines := db.length }
    output := o }

/-- Pass 1 of `deduplicate_remove_all_disk` (src/lib.rs:664-698): running
count per key as an 8-byte little-endian value. -/
def raDiskPass1 (options : DeduplicationOptions) :
    List (List Nat) → Nat → List (List Nat × List Nat) → List (List Nat × List Nat) × Nat
  | [], i, db => (db, i)
  | l :: ls, i, db =>
    let k := keyOf options l
    let c := match alGet k db with
      | some existing => (decodeLE64 existing + 1) % 18446744073709551616
      | none => 1
    raDiskPass1 options ls (i + 1) (alInsert k (encodeLE64 c) db)

/-- Pass 2 of `deduplicate_remove_all_disk` (src/lib.rs:717-753): keep a
line iff its key's stored count is 1; a store miss silently does nothing. -/
def raDiskPass2 (options : DeduplicationOptions) (db : List (List Nat × List Nat)) :
    List (List Nat) → List Nat × Nat × Nat
  | [] => ([], 0, 0)
  | l :: ls =>
    let (o, w, r) := raDiskPass2 options db ls
    match alGet (keyOf options l) db with
    | some countBytes =>
      let c := decodeLE64 countBytes
      if c = 1 then
        (((if options.count then fmtCount c else []) ++ l) ++ o, w + 1, r)
      else
        ((if options.show_removed then marker ++ l else []) ++ o, w, r + 1)
    | none => (o, w, r)

/-- `fn deduplicate_remove_all_disk` (src/lib.rs:649-756); `unique_lines`
counts the stored values decoding to 1 (src/lib.rs:701-710). -/
def dedupRemoveAllDisk (input : List Nat) (options : DeduplicationOptions) : DedupRun :=
  let (db, read) := raDiskPass1 options (readLines input) 0 []
  let (o, w, r) := raDiskPass2 options db (readLines input)
  { stats :=
      { lines_read := read, lines_written := w, lines_removed := r,
        unique_lines := (db.map Prod.snd).countP (fun v => decodeLE64 v == 1) }
    output := o }

/-! ## Mode dispatcher (src/lib.rs:89-144) -/

/-- The `InvalidArgument` message of the dispatcher (src/lib.rs:102). -/
def seekableMsg : String :=
  "Disk-backed KeepLast and RemoveAll modes require a seekable input. Use deduplicate_seekable() or provide a file."

/-- `fn deduplicate` (src/lib.rs:89-115): the result paired with the bytes
written to the sink (nothing on the rejection path, which returns before
reading any input; `flush` is a no-op on a byte buffer). -/
def deduplicate (input : List Nat) (options : DeduplicationOptions) :
    Except Error DeduplicationStats × List Nat :=
  if options.use_disk then
    match options.mode with
    | .KeepFirst =>
      let run := dedupKeepFirstDisk input options
      (Except.ok run.stats, run.output)
    | .KeepLast => (Except.error (Error.InvalidArgument seekableMsg), [])
    | .RemoveAll => (Except.error (Error.InvalidArgument seekableMsg), [])
  else
    let run :=
      match options.mode with
      | .KeepFirst => dedupKeepFirst input options
      | .KeepLast => dedupKeepLast input options
      | .RemoveAll => dedupRemoveAll input options
    (Except.ok run.stats, run.output)

/-- `fn deduplicate_seekable` (src/lib.rs:118-144). -/
def deduplicate_seekable (input : List Nat) (options : DeduplicationOptions) :
    Except Error DeduplicationStats × List Nat :=
  if options.use_disk then
    match options.mode with
    | .KeepLast =>
      let run := dedupKeepLastDisk input options
      (Except.ok run.stats, run.output)
    | .RemoveAll =>
      let run := dedupRemoveAllDisk input options
      (Except.ok run.stats, run.output)
    | .KeepFirst => deduplicate input options
  else deduplicate input options

/-! ## Declarative descriptions

Spec-level restatements of the engines, used on the right-hand side of the
characterization theorems: which lines a policy keeps, and the exact record
each line contributes to the output, phrased by occurrence counting instead
of by mapping state. -/

/-- Number of lines of `ls` whose derived key is `k`. -/
def countKey (options : DeduplicationOptions) (ls : List (List Nat)) (k : List Nat) : Nat :=
  ls.countP (fun l => keyOf options l == k)

/-- Lines keep-first keeps from `ls` after having already seen `prev`:
those whose key does not occur earlier (in `prev` or before them in `ls`). -/
def kfKept (options : DeduplicationOptions) : List (List Nat) → List (List Nat) → List (List Nat)
  | _, [] => []
  | prev, l :: ls =>
    if countKey options prev (keyOf options l) = 0 then
      l :: kfKept options (prev ++ [l]) ls
    else kfKept options (prev ++ [l]) ls

/-- Bytes keep-first's main loop writes for `ls` after `prev`: a first
occurrence verbatim (deferred, i.e. nothing, when counting), a repeat only
as a marker record when `show_removed`. -/
def kfMainOut (options : DeduplicationOptions) : List (List Nat) → List (List Nat) → List Nat
  | _, [] => []
  | prev, l :: ls =>
    (if countKey options prev (keyOf options l) = 0 then
      if options.count then [] else l
     else if options.show_removed then marker ++ l else [])
      ++ kfMainOut options (prev ++ [l]) ls

/-- Bytes of keep-first's deferred count block: each kept line prefixed by
the total occurrence count of its key in the whole input. -/
def kfTail (options : DeduplicationOptions) (all kept : List (List Nat)) : List Nat :=
  flat (kept.map (fun l => fmtCount (countKey options all (keyOf options l)) ++ l))

/-- Lines keep-last keeps: those whose key does not occur again later. -/
def klKeptRel (options : DeduplicationOptions) : List (List Nat) → List (List Nat)
  | [] => []
  | l :: ls =>
    if countKey options ls (keyOf options l) = 0 then l :: klKeptRel options ls
    else klKeptRel options ls

/-- Bytes keep-last writes while replaying `rest` (a suffix of the full
buffer `all`): a last occurrence verbatim, prefixed under `count` by its
key's total count over `all`; an earlier occurrence only as a marker record
when `show_removed`. -/
def klOutRel (options : DeduplicationOptions) (all : List (List Nat)) :
    List (List Nat) → List Nat
  | [] => []
  | l :: ls =>
    (if countKey options ls (keyOf options l) = 0 then
      (if options.count then fmtCount (countKey options all (keyOf options l)) else []) ++ l
     else if options.show_removed then marker ++ l else [])
      ++ klOutRel options all ls

/-- Lines remove-all keeps from `rest`: those whose key occurs exactly once
in the whole input `all`. -/
def raKept (options : DeduplicationOptions) (all rest : List (List Nat)) : List (List Nat) :=
  rest.filter (fun l => countKey options all (keyOf options l) == 1)

/-- Bytes remove-all writes while replaying `rest`. -/
def raOutRel (options : DeduplicationOptions) (all : List (List Nat)) :
    List (List Nat) → List Nat
  | [] => []
  | l :: ls =>
    (if countKey options all (keyOf options l) = 1 then
      (if options.count then fmtCount 1 else []) ++ l
     else if options.show_removed then marker ++ l else [])
      ++ raOutRel options all ls

/-- Is a byte ASCII whitespace?  Used only by `specByteTokens`. -/
def isWSByte (b : Nat) : Bool := (9 ≤ b && b ≤ 13) || b = 32

/-- Splitting loop for `specByteTokens`. -/
def specByteTokensAux (cur : List Nat) : List Nat → List (List Nat)
  | [] => if cur.isEmpty then [] else [cur.reverse]
  | b :: bs =>
    if isWSByte b then
      if cur.isEmpty then specByteTokensAux [] bs
      else cur.reverse :: specByteTokensAux [] bs
    else specByteTokensAux (b :: cur) bs

/-- The byte-level reading of claim C3's "split the terminator-stripped
content on whitespace runs, collecting non-empty tokens": tokens of the RAW
BYTES, split on whitespace, with no UTF-8 decoding involved.  This follows
the claim's words and is compared against what `make_key` actually does. -/
def specByteTokens (bs : List Nat) : List (List Nat) := specByteTokensAux [] bs

/-- Substring test on byte lists: does `hay` start with `needle`? -/
def leadEq : List Nat → List Nat → Bool
  | [], _ => true
  | _ :: _, [] => false
  | a :: as, b :: bs => a == b && leadEq as bs

/-- Substring test on byte lists: does `needle` occur inside `hay`? -/
def hasSubB (needle : List Nat) : List Nat → Bool
  | [] => needle.isEmpty
  | b :: bs => leadEq needle (b :: bs) || hasSubB needle bs

/-! ## Basic lemmas: association lists and key counting -/

theorem alGet_alInsert_self {α : Type} (k : List Nat) (v : α) (m : List (List Nat × α)) :
    alGet k (alInsert k v m) = some v := by
  induction m with
  | nil => simp [alInsert, alGet]
  | cons e rest ih =>
    obtain ⟨k', v'⟩ := e
    by_cases h : k' = k <;> simp [alInsert, alGet, h, ih]

theorem alGet_alInsert_ne {α : Type} {k k' : List Nat} (v : α) (m : List (List Nat × α))
    (h : k' ≠ k) : alGet k (alInsert k' v m) = alGet k m := by
  induction m with
  | nil => simp [alInsert, alGet, h]
  | cons e rest ih =>
    obtain ⟨k'', v''⟩ := e
    by_cases h2 : k'' = k' <;> by_cases h3 : k'' = k <;>
      simp_all [alInsert, alGet]

theorem alGet_mem {α : Type} {k : List Nat} {v : α} :
    ∀ {m : List (List Nat × α)}, alGet k m = some v → (k, v) ∈ m := by
  intro m
  induction m with
  | nil => simp [alGet]
  | cons e rest ih =>
    obtain ⟨k', v'⟩ := e
    by_cases h : k' = k <;> intro hg <;> simp [alGet, h] at hg
    · subst h; subst hg; exact List.mem_cons_self _ _
    · exact List.mem_cons_of_mem _ (ih hg)

theorem mem_alGet {α : Type} {k : List Nat} {v : α} :
    ∀ {m : List (List Nat × α)}, (m.map Prod.fst).Nodup → (k, v) ∈ m → alGet k m = some v := by
  intro m
  induction m with
  | nil => simp
  | cons e rest ih =>
    obtain ⟨k', v'⟩ := e
    intro hnd hm
    rcases List.mem_cons.mp hm with h | h
    · obtain ⟨h1, h2⟩ := Prod.mk.injEq .. ▸ h
      simp [alGet, h1.symm, h2]
    · have hk : k' ≠ k := by
        intro he
        subst he
        have : k' ∈ rest.map Prod.fst := List.mem_map.mpr ⟨(k', v), h, rfl⟩
        simp_all
      have := ih (by simpa using hnd.of_cons) h
      simp [alGet, hk, this]

theorem mem_alInsert {α : Type} {k : List Nat} {v : α} {e : List Nat × α} :
    ∀ {m : List (List Nat × α)}, e ∈ alInsert k v m → e = (k, v) ∨ e ∈ m := by
  intro m
  induction m with
  | nil => simp [alInsert]
  | cons e' rest ih =>
    obtain ⟨k', v'⟩ := e'
    by_cases h : k' = k <;> intro hm <;> simp [alInsert, h] at hm
    · rcases hm with h1 | h1
      · left; simp [h1]
      · right; simp [h1]
    · rcases hm with h1 | h1
      · right; simp [h1]
      · rcases ih h1 with h2 | h2
        · left; exact h2
        · right; simp [h2]

theorem alInsert_keys_nodup {α : Type} (k : List Nat) (v : α) :
    ∀ {m : List (List Nat × α)}, (m.map Prod.fst).Nodup →
      ((alInsert k v m).map Prod.fst).Nodup := by
  intro m
  induction m with
  | nil => simp [alInsert]
  | cons e rest ih =>
    obtain ⟨k', v'⟩ := e
    intro hnd
    by_cases h : k' = k
    · subst h; simpa [alInsert] using hnd
    · simp only [List.map_cons, List.nodup_cons] at hnd
      simp only [alInsert, if_neg h, List.map_cons, List.nodup_cons]
      refine ⟨?_, ih hnd.2⟩
      intro hmem
      rcases List.mem_map.mp hmem with ⟨e2, he2, hfst⟩
      rcases mem_alInsert he2 with h2 | h2
      · subst h2; exact h hfst.symm
      · exact hnd.1 (List.mem_map.mpr ⟨e2, h2, hfst⟩)

theorem alGet_isSome_alInsert {α : Type} {k : List Nat} (k' : List Nat) (v : α)
    {m : List (List Nat × α)} (h : (alGet k m).isSome) :
    (alGet k (alInsert k' v m)).isSome := by
  by_cases he : k' = k
  · subst he; simp [alGet_alInsert_self]
  · rwa [alGet_alInsert_ne v m he]

theorem countKey_append (options : DeduplicationOptions) (a b : List (List Nat)) (k : List Nat) :
    countKey options (a ++ b) k = countKey options a k + countKey options b k := by
  simp [countKey, List.countP_append]

theorem countKey_cons (options : DeduplicationOptions) (l : List Nat) (ls : List (List Nat))
    (k : List Nat) :
    countKey options (l :: ls) k
      = countKey options ls k + if keyOf options l = k then 1 else 0 := by
  simp [countKey, List.countP_cons]

theorem countKey_nil (options : DeduplicationOptions) (k : List Nat) :
    countKey options [] k = 0 := rfl

theorem countKey_snoc (options : DeduplicationOptions) (ls : List (List Nat)) (l : List Nat)
    (k : List Nat) :
    countKey options (ls ++ [l]) k
      = countKey options ls k + if keyOf options l = k then 1 else 0 := by
  rw [countKey_append]
  simp [countKey, List.countP_cons]

theorem countKey_pos_of_mem {options : DeduplicationOptions} {l : List Nat}
    {ls : List (List Nat)} (h : l ∈ ls) : 0 < countKey options ls (keyOf options l) := by
  simp only [countKey, List.countP_pos_iff]
  exact ⟨l, h, by simp⟩

theorem countKey_eq_zero {options : DeduplicationOptions} {ls : List (List Nat)}
    {k : List Nat} :
    countKey options ls k = 0 ↔ ∀ l ∈ ls, keyOf options l ≠ k := by
  simp [countKey, List.countP_eq_zero]

/-! ## Characterization of the in-memory keep-first engine -/

/-- The `seen` map of the keep-first loop holds, after processing `done`,
exactly the per-key occurrence counts of `done` (absent keys unseen). -/
def SeenInv (options : DeduplicationOptions) (done : List (List Nat))
    (seen : List (List Nat × Nat)) : Prop :=
  ∀ k, alGet k seen
    = if countKey options done k = 0 then none else some (countKey options done k)

theorem seenInv_nil (options : DeduplicationOptions) : SeenInv options [] [] := by
  intro k
  simp [alGet, countKey]

theorem SeenInv.getD {options : DeduplicationOptions} {done : List (List Nat)}
    {seen : List (List Nat × Nat)} (h : SeenInv options done seen) (k : List Nat) :
    (alGet k seen).getD 0 = countKey options done k := by
  rcases Nat.eq_zero_or_pos (countKey options done k) with h0 | h0
  · rw [h k, if_pos h0, h0]; rfl
  · rw [h k, if_neg (Nat.pos_iff_ne_zero.mp h0)]; rfl

theorem SeenInv.step {options : DeduplicationOptions} {done : List (List Nat)}
    {seen : List (List Nat × Nat)} (h : SeenInv options done seen) (l : List Nat) :
    SeenInv options (done ++ [l])
      (alInsert (keyOf options l) ((alGet (keyOf options l) seen).getD 0 + 1) seen) := by
  intro k
  by_cases hk : keyOf options l = k
  · subst hk
    rw [alGet_alInsert_self, h.getD, countKey_snoc]
    simp
  · rw [alGet_alInsert_ne _ _ hk, countKey_snoc, if_neg hk, Nat.add_zero, h k]

theorem kfKept_length_le (options : DeduplicationOptions) :
    ∀ (ls prev : List (List Nat)), (kfKept options prev ls).length ≤ ls.length := by
  intro ls
  induction ls with
  | nil => intro prev; simp [kfKept]
  | cons l ls ih =>
    intro prev
    by_cases h : countKey options prev (keyOf options l) = 0 <;>
      simp only [kfKept, if_pos, if_neg, h, List.length_cons]
    · exact Nat.succ_le_succ (ih _)
    · exact Nat.le_succ_of_le (ih _)

theorem kfKept_sublist (options : DeduplicationOptions) :
    ∀ (ls prev : List (List Nat)), (kfKept options prev ls).Sublist ls := by
  intro ls
  induction ls with
  | nil => intro prev; simp [kfKept]
  | cons l ls ih =>
    intro prev
    by_cases h : countKey options prev (keyOf options l) = 0 <;>
      simp only [kfKept, if_pos, if_neg, h]
    · exact List.Sublist.cons₂ l (ih _)
    · exact List.Sublist.cons l (ih _)

/-- Full characterization of the keep-first main loop by the declarative
descriptions, generalized over a starting state whose `seen` map reflects
the already-processed lines `done`. -/
theorem kfLoop_spec (options : DeduplicationOptions) :
    ∀ (ls : List (List Nat)) (st : KFState) (done : List (List Nat)),
      SeenInv options done st.seen →
      (kfLoop options ls st).out = st.out ++ kfMainOut options done ls
      ∧ (kfLoop options ls st).pend
          = st.pend ++ (if options.count then kfKept options done ls else [])
      ∧ (kfLoop options ls st).read = st.read + ls.length
      ∧ (kfLoop options ls st).written = st.written + (kfKept options done ls).length
      ∧ (kfLoop options ls st).removed
          = st.removed + (ls.length - (kfKept options done ls).length)
      ∧ SeenInv options (done ++ ls) (kfLoop options ls st).seen := by
  intro ls
  induction ls with
  | nil =>
    intro st done hinv
    simp [kfLoop, kfMainOut, kfKept, hinv]
  | cons l ls ih =>
    intro st done hinv
    have hc : (alGet (keyOf options l) st.seen).getD 0 + 1
        = countKey options done (keyOf options l) + 1 := by rw [hinv.getD]
    have hstep := hinv.step l
    by_cases h : countKey options done (keyOf options l) = 0
    · have hone : (alGet (keyOf options l) st.seen).getD 0 + 1 = 1 := by rw [hc, h]
      have hred : kfLoop options (l :: ls) st = kfLoop options ls
          { seen := alInsert (keyOf options l)
              ((alGet (keyOf options l) st.seen).getD 0 + 1) st.seen
            pend := if options.count then st.pend ++ [l] else st.pend
            out := if options.count then st.out else st.out ++ l
            read := st.read + 1, written := st.written + 1, removed := st.removed } := by
        simp only [kfLoop]
        rw [if_pos hone]
      obtain ⟨h1, h2, h3, h4, h5, h6⟩ := ih
        { seen := alInsert (keyOf options l)
            ((alGet (keyOf options l) st.seen).getD 0 + 1) st.seen
          pend := if options.count then st.pend ++ [l] else st.pend
          out := if options.count then st.out else st.out ++ l
          read := st.read + 1, written := st.written + 1, removed := st.removed }
        (done ++ [l]) hstep
      rw [List.append_assoc, List.singleton_append] at h6
      rw [hred]
      refine ⟨?_, ?_, ?_, ?_, ?_, h6⟩
      · rw [h1]
        simp only [kfMainOut, if_pos h]
        by_cases hcnt : options.count <;> simp [hcnt, List.append_assoc]
      · rw [h2]
        simp only [kfKept, if_pos h]
        by_cases hcnt : options.count <;> simp [hcnt, List.append_assoc]
      · rw [h3]; simp; omega
      · rw [h4]; simp [kfKept, if_pos h]; omega
      · rw [h5]
        simp only [kfKept, if_pos h, List.length_cons]
        have := kfKept_length_le options ls (done ++ [l])
        omega
    · have hne : ¬((alGet (keyOf options l) st.seen).getD 0 + 1 = 1) := by
        rw [hc]; omega
      have hred : kfLoop options (l :: ls) st = kfLoop options ls
          { seen := alInsert (keyOf options l)
              ((alGet (keyOf options l) st.seen).getD 0 + 1) st.seen
            pend := st.pend
            out := if options.show_removed then st.out ++ marker ++ l else st.out
            read := st.read + 1, written := st.written, removed := st.removed + 1 } := by
        simp only [kfLoop]
        rw [if_neg hne]
      obtain ⟨h1, h2, h3, h4, h5, h6⟩ := ih
        { seen := alInsert (keyOf options l)
            ((alGet (keyOf options l) st.seen).getD 0 + 1) st.seen
          pend := st.pend
          out := if options.show_removed then st.out ++ marker ++ l else st.out
          read := st.read + 1, written := st.written, removed := st.removed + 1 }
        (done ++ [l]) hstep
      rw [List.append_assoc, List.singleton_append] at h6
      rw [hred]
      refine ⟨?_, ?_, ?_, ?_, ?_, h6⟩
      · rw [h1]
        simp only [kfMainOut, if_neg h]
        by_cases hsr : options.show_removed <;> simp [hsr, List.append_assoc]
      · rw [h2]
        simp only [kfKept, if_neg h]
      · rw [h3]; simp; omega
      · rw [h4]; simp [kfKept, if_neg h]
      · rw [h5]
        simp only [kfKept, if_neg h, List.length_cons]
        have := kfKept_length_le options ls (done ++ [l])
        omega

theorem kfKept_subset {options : DeduplicationOptions} {ls prev : List (List Nat)}
    {l : List Nat} (h : l ∈ kfKept options prev ls) : l ∈ ls :=
  (kfKept_sublist options ls prev).subset h

/-- The count-replay equals the declarative count block when the `seen` map
reflects the whole input and every deferred line occurs in it. -/
theorem kfReplay_eq (options : DeduplicationOptions) (all : List (List Nat))
    (seen : List (List Nat × Nat)) (hinv : SeenInv options all seen) :
    ∀ pend, (∀ l ∈ pend, 0 < countKey options all (keyOf options l)) →
      kfReplay options seen pend = kfTail options all pend := by
  intro pend
  induction pend with
  | nil => intro _; simp [kfReplay, kfTail, flat]
  | cons l ls ih =>
    intro hmem
    have hpos := hmem l (List.mem_cons_self _ _)
    have hget : alGet (keyOf options l) seen
        = some (countKey options all (keyOf options l)) := by
      rw [hinv (keyOf options l), if_neg (Nat.pos_iff_ne_zero.mp hpos)]
    simp only [kfReplay, hget, kfTail, List.map_cons, flat]
    rw [ih (fun l2 h2 => hmem l2 (List.mem_cons_of_mem _ h2))]
    simp [kfTail, List.append_assoc]

/-- Characterization of `deduplicate_keep_first`: output and statistics in
terms of the declarative first-occurrence descriptions. -/
theorem dedupKeepFirst_spec (input : List Nat) (options : DeduplicationOptions) :
    (dedupKeepFirst input options).output
      = kfMainOut options [] (readLines input)
        ++ (if options.count then
              kfTail options (readLines input) (kfKept options [] (readLines input))
            else [])
    ∧ (dedupKeepFirst input options).stats.lines_read = (readLines input).length
    ∧ (dedupKeepFirst input options).stats.lines_written
        = (kfKept options [] (readLines input)).length
    ∧ (dedupKeepFirst input options).stats.lines_written
        + (dedupKeepFirst input options).stats.lines_removed
        = (readLines input).length := by
  have hspec := kfLoop_spec options (readLines input) ⟨[], [], [], 0, 0, 0⟩ []
    (seenInv_nil options)
  obtain ⟨h1, h2, h3, h4, h5, h6⟩ := hspec
  have hkle := kfKept_length_le options (readLines input) []
  constructor
  · show (kfLoop options (readLines input) ⟨[], [], [], 0, 0, 0⟩).out
      ++ _ = _
    rw [h1, h2]
    simp only [List.nil_append]
    by_cases hcnt : options.count
    · simp only [hcnt, if_true]
      congr 1
      exact kfReplay_eq options (readLines input) _ (by simpa using h6) _
        (fun l hl => countKey_pos_of_mem (kfKept_subset hl))
    · simp [hcnt]
  · refine ⟨by simpa using h3, by simpa using h4, ?_⟩
    show (kfLoop options (readLines input) ⟨[], [], [], 0, 0, 0⟩).written
      + (kfLoop options (readLines input) ⟨[], [], [], 0, 0, 0⟩).removed = _
    rw [h4, h5]
    simp only [Nat.zero_add]
    omega

/-! ## Characterization of the in-memory keep-last engine -/

/-- The last occurrence of key `k` in a line list, as an (index, line) pair,
indices starting at `i`. -/
def lastEntryFrom (options : DeduplicationOptions) (k : List Nat) :
    Nat → List (List Nat) → Option (Nat × List Nat)
  | _, [] => none
  | i, l :: ls =>
    match lastEntryFrom options k (i + 1) ls with
    | some e => some e
    | none => if keyOf options l = k then some (i, l) else none

theorem lastEntryFrom_append (options : DeduplicationOptions) (k : List Nat) :
    ∀ (done : List (List Nat)) (i : Nat) (l : List Nat),
      lastEntryFrom options k i (done ++ [l])
        = if keyOf options l = k then some (i + done.length, l)
          else lastEntryFrom options k i done := by
  intro done
  induction done with
  | nil =>
    intro i l
    simp [lastEntryFrom]
  | cons d done ih =>
    intro i l
    by_cases h : keyOf options l = k
    · simp only [List.cons_append, lastEntryFrom, List.append_eq, ih (i + 1) l, if_pos h,
        List.length_cons]
      congr 2
      omega
    · simp only [List.cons_append, lastEntryFrom, List.append_eq, ih (i + 1) l, if_neg h]

theorem lastEntryFrom_none_of_zero (options : DeduplicationOptions) (k : List Nat) :
    ∀ (ls : List (List Nat)) (i : Nat), countKey options ls k = 0 →
      lastEntryFrom options k i ls = none := by
  intro ls
  induction ls with
  | nil => intro i _; rfl
  | cons l ls ih =>
    intro i hz
    rw [countKey_cons] at hz
    have h1 : countKey options ls k = 0 := by omega
    have h2 : keyOf options l ≠ k := by
      intro he
      simp [he] at hz
    simp [lastEntryFrom, ih i.succ h1, h2]

theorem lastEntryFrom_zero_of_none (options : DeduplicationOptions) (k : List Nat) :
    ∀ (ls : List (List Nat)) (i : Nat), lastEntryFrom options k i ls = none →
      countKey options ls k = 0 := by
  intro ls
  induction ls with
  | nil => intro i _; rfl
  | cons l ls ih =>
    intro i hn
    simp only [lastEntryFrom] at hn
    rcases hrec : lastEntryFrom options k (i + 1) ls with _ | e
    · rw [hrec] at hn
      have h2 : keyOf options l ≠ k := by
        intro he
        simp [he] at hn
      rw [countKey_cons, ih _ hrec, if_neg h2]
    · rw [hrec] at hn
      simp at hn

theorem lastEntryFrom_sound (options : DeduplicationOptions) (k : List Nat) :
    ∀ (ls : List (List Nat)) (i j : Nat) (l : List Nat),
      lastEntryFrom options k i ls = some (j, l) →
      i ≤ j ∧ ls[j - i]? = some l ∧ keyOf options l = k
        ∧ countKey options (ls.drop (j - i + 1)) k = 0 := by
  intro ls
  induction ls with
  | nil => intro i j l h; simp [lastEntryFrom] at h
  | cons l0 ls ih =>
    intro i j l h
    simp only [lastEntryFrom] at h
    rcases hrec : lastEntryFrom options k (i + 1) ls with _ | e
    · rw [hrec] at h
      by_cases hk : keyOf options l0 = k
      · rw [if_pos hk] at h
        have hj : i = j ∧ l0 = l := by
          constructor <;> [exact congrArg Prod.fst (Option.some.inj h);
            exact congrArg Prod.snd (Option.some.inj h)]
        obtain ⟨hj, hl⟩ := hj
        subst hj; subst hl
        refine ⟨Nat.le_refl _, ?_, hk, ?_⟩
        · simp
        · simp only [Nat.sub_self, Nat.zero_add, List.drop_one, List.tail_cons]
          exact lastEntryFrom_zero_of_none options k ls (i + 1) hrec
      · rw [if_neg hk] at h
        exact absurd h (by simp)
    · rw [hrec] at h
      have he : e = (j, l) := Option.some.inj h
      subst he
      obtain ⟨hij, hidx, hkey, hcnt⟩ := ih (i + 1) j l hrec
      have hij' : i ≤ j := Nat.le_of_succ_le hij
      have hd : j - i = (j - (i + 1)) + 1 := by omega
      refine ⟨hij', ?_, hkey, ?_⟩
      · rw [hd]
        simpa using hidx
      · rw [hd]
        simpa using hcnt

theorem lastEntryFrom_complete (options : DeduplicationOptions) (k : List Nat) :
    ∀ (ls : List (List Nat)) (i j : Nat) (l : List Nat),
      ls[j]? = some l → keyOf options l = k →
      countKey options (ls.drop (j + 1)) k = 0 →
      lastEntryFrom options k i ls = some (i + j, l) := by
  intro ls
  induction ls with
  | nil => intro i j l h; simp at h
  | cons l0 ls ih =>
    intro i j l hidx hkey hcnt
    cases j with
    | zero =>
      simp at hidx
      subst hidx
      simp only [Nat.zero_add, List.drop_one, List.tail_cons] at hcnt
      simp [lastEntryFrom, lastEntryFrom_none_of_zero options k ls (i + 1) hcnt, hkey]
    | succ j =>
      simp only [List.getElem?_cons_succ] at hidx
      have hcnt' : countKey options (ls.drop (j + 1)) k = 0 := by simpa using hcnt
      have := ih (i + 1) j l hidx hkey hcnt'
      simp only [lastEntryFrom, this]
      congr 2
      omega

/-- Pass-1 invariant of keep-last: distinct keys, and lookup agrees with the
declarative last-occurrence function over the processed lines. -/
def KLInv (options : DeduplicationOptions) (done : List (List Nat))
    (m : List (List Nat × (Nat × List Nat))) : Prop :=
  (m.map Prod.fst).Nodup ∧ ∀ k, alGet k m = lastEntryFrom options k 0 done

theorem klPass1_spec (options : DeduplicationOptions) :
    ∀ (ls : List (List Nat)) (st : KLState), st.read = st.lines.length →
      KLInv options st.lines st.m →
      (klPass1 options ls st).lines = st.lines ++ ls
      ∧ (klPass1 options ls st).read = st.read + ls.length
      ∧ KLInv options (st.lines ++ ls) (klPass1 options ls st).m := by
  intro ls
  induction ls with
  | nil =>
    intro st hr hinv
    exact ⟨by simp [klPass1], by simp [klPass1], by simpa [klPass1] using hinv⟩
  | cons l ls ih =>
    intro st hr hinv
    have hstep : KLInv options (st.lines ++ [l])
        (alInsert (keyOf options l) (st.read, l) st.m) := by
      refine ⟨alInsert_keys_nodup _ _ hinv.1, ?_⟩
      intro k
      rw [lastEntryFrom_append]
      by_cases hk : keyOf options l = k
      · subst hk
        rw [alGet_alInsert_self, if_pos rfl, Nat.zero_add, hr]
      · rw [alGet_alInsert_ne _ _ hk, if_neg hk, hinv.2 k]
    have := ih
      { m := alInsert (keyOf options l) (st.read, l) st.m
        lines := st.lines ++ [l]
        read := st.read + 1 }
      (by simp [hr]) hstep
    obtain ⟨h1, h2, h3⟩ := this
    rw [List.append_assoc, List.singleton_append] at h1 h3
    refine ⟨h1, ?_, h3⟩
    show (klPass1 options ls _).read = _
    rw [h2]
    simp
    omega

/-- After pass 1, an index is in the kept set iff the line at that index is
the last occurrence of its key. -/
theorem klKeptIdx_iff (options : DeduplicationOptions) (all : List (List Nat))
    (m : List (List Nat × (Nat × List Nat))) (hinv : KLInv options all m) (i : Nat) :
    i ∈ m.map (fun e => e.2.1)
      ↔ ∃ l, all[i]? = some l
          ∧ countKey options (all.drop (i + 1)) (keyOf options l) = 0 := by
  constructor
  · intro hmem
    rcases List.mem_map.mp hmem with ⟨⟨k, j, l⟩, hm, hj⟩
    simp only at hj
    have hget : alGet k m = some (j, l) := mem_alGet hinv.1 hm
    rw [hinv.2 k] at hget
    obtain ⟨_, hidx, hkey, hcnt⟩ := lastEntryFrom_sound options k all 0 j l hget
    rw [Nat.sub_zero] at hidx hcnt
    rw [← hj]
    exact ⟨l, hidx, by rw [hkey]; exact hcnt⟩
  · rintro ⟨l, hidx, hcnt⟩
    have := lastEntryFrom_complete options (keyOf options l) all 0 i l hidx rfl hcnt
    rw [Nat.zero_add] at this
    have hget : alGet (keyOf options l) m = some (i, l) := by rw [hinv.2]; exact this
    exact List.mem_map.mpr ⟨(keyOf options l, i, l), alGet_mem hget, rfl⟩

theorem klKeptRel_length_le (options : DeduplicationOptions) :
    ∀ ls : List (List Nat), (klKeptRel options ls).length ≤ ls.length := by
  intro ls
  induction ls with
  | nil => simp [klKeptRel]
  | cons x xs ihx =>
    by_cases hx : countKey options xs (keyOf options x) = 0
    · simp only [klKeptRel, if_pos hx, List.length_cons]
      omega
    · simp only [klKeptRel, if_neg hx, List.length_cons]
      omega

theorem klPass2_spec (options : DeduplicationOptions) (all : List (List Nat))
    (keptIdx : List Nat)
    (hiff : ∀ i, i ∈ keptIdx
      ↔ ∃ l, all[i]? = some l
          ∧ countKey options (all.drop (i + 1)) (keyOf options l) = 0) :
    ∀ (rest : List (List Nat)) (i : Nat), rest = all.drop i →
      klPass2 options all keptIdx i rest
        = (klOutRel options all rest, (klKeptRel options rest).length,
           rest.length - (klKeptRel options rest).length) := by
  intro rest
  induction rest with
  | nil => intro i _; rfl
  | cons l ls ih =>
    intro i hdrop
    have hidx : all[i]? = some l := by
      have h0 : (all.drop i)[0]? = all[i]? := by simp [List.getElem?_drop]
      rw [← h0, ← hdrop]
      simp
    have hdrop1 : all.drop (i + 1) = ls := by
      have hdd : all.drop (i + 1) = (all.drop i).drop 1 := by
        rw [List.drop_drop]
      rw [hdd, ← hdrop]
      rfl
    have hmem : i ∈ keptIdx ↔ countKey options ls (keyOf options l) = 0 := by
      rw [hiff i]
      constructor
      · rintro ⟨l', hl', hc⟩
        rw [hidx] at hl'
        obtain rfl : l = l' := by simpa using hl'
        rwa [hdrop1] at hc
      · intro hc
        exact ⟨l, hidx, by rwa [hdrop1]⟩
    have ihs := ih (i + 1) hdrop1.symm
    have hkle := klKeptRel_length_le options ls
    by_cases h : countKey options ls (keyOf options l) = 0
    · have hc : keptIdx.contains i = true := by
        simpa [List.contains_iff_exists_mem_beq, Nat.beq_eq] using hmem.mpr h
      have hcc : countKey options all (keyOf options l)
          = all.countP (fun l2 => keyOf options l2 == keyOf options l) := rfl
      simp only [klPass2, ihs, hc, if_true, klOutRel, klKeptRel, if_pos h, ← hcc]
      simp [List.length_cons, List.append_assoc]
    · have hc : keptIdx.contains i = false := by
        by_cases hcc : keptIdx.contains i = true
        · exact absurd (hmem.mp
            (by simpa [List.contains_iff_exists_mem_beq, Nat.beq_eq] using hcc)) h
        · simpa using hcc
      simp only [klPass2, ihs, hc, Bool.false_eq_true, if_false, klOutRel, klKeptRel,
        if_neg h]
      simp [List.length_cons]
      omega

/-- Characterization of `deduplicate_keep_last`: output and statistics in
terms of the declarative last-occurrence descriptions. -/
theorem dedupKeepLast_spec (input : List Nat) (options : DeduplicationOptions) :
    (dedupKeepLast input options).output
      = klOutRel options (readLines input) (readLines input)
    ∧ (dedupKeepLast input options).stats.lines_read = (readLines input).length
    ∧ (dedupKeepLast input options).stats.lines_written
        = (klKeptRel options (readLines input)).length
    ∧ (dedupKeepLast input options).stats.lines_written
        + (dedupKeepLast input options).stats.lines_removed
        = (readLines input).length := by
  have hinv0 : KLInv options [] [] := ⟨by simp, fun k => rfl⟩
  obtain ⟨h1, h2, h3⟩ := klPass1_spec options (readLines input) ⟨[], [], 0⟩ rfl hinv0
  rw [List.nil_append] at h1 h3
  have hiff := fun i => klKeptIdx_iff options (readLines input) _ h3 i
  have hp2 := klPass2_spec options (readLines input)
    ((klPass1 options (readLines input) ⟨[], [], 0⟩).m.map (fun e => e.2.1)) hiff
    (readLines input) 0 (by simp)
  have hkle := klKeptRel_length_le options (readLines input)
  constructor
  · show (klPass2 options (klPass1 options (readLines input) ⟨[], [], 0⟩).lines _ 0
      (klPass1 options (readLines input) ⟨[], [], 0⟩).lines).1 = _
    rw [h1]
    rw [hp2]
  · refine ⟨by simpa using h2, ?_, ?_⟩
    · show (klPass2 options (klPass1 options (readLines input) ⟨[], [], 0⟩).lines _ 0
        (klPass1 options (readLines input) ⟨[], [], 0⟩).lines).2.1 = _
      rw [h1]
      rw [hp2]
    · show (klPass2 options (klPass1 options (readLines input) ⟨[], [], 0⟩).lines _ 0
          (klPass1 options (readLines input) ⟨[], [], 0⟩).lines).2.1
        + (klPass2 options (klPass1 options (readLines input) ⟨[], [], 0⟩).lines _ 0
          (klPass1 options (readLines input) ⟨[], [], 0⟩).lines).2.2 = _
      rw [h1]
      rw [hp2]
      simp only
      omega

/-! ## Characterization of the in-memory remove-all engine -/

theorem raPass1_spec (options : DeduplicationOptions) :
    ∀ (ls : List (List Nat)) (st : RAState),
      SeenInv options st.lines st.counts →
      (raPass1 options ls st).lines = st.lines ++ ls
      ∧ (raPass1 options ls st).read = st.read + ls.length
      ∧ SeenInv options (st.lines ++ ls) (raPass1 options ls st).counts := by
  intro ls
  induction ls with
  | nil =>
    intro st hinv
    exact ⟨by simp [raPass1], by simp [raPass1], by simpa [raPass1] using hinv⟩
  | cons l ls ih =>
    intro st hinv
    have hstep := hinv.step l
    have := ih
      { counts := alInsert (keyOf options l)
          ((alGet (keyOf options l) st.counts).getD 0 + 1) st.counts
        lines := st.lines ++ [l]
        read := st.read + 1 }
      hstep
    obtain ⟨h1, h2, h3⟩ := this
    rw [List.append_assoc, List.singleton_append] at h1 h3
    refine ⟨h1, ?_, h3⟩
    show (raPass1 options ls _).read = _
    rw [h2]
    simp
    omega

theorem raKept_length_le (options : DeduplicationOptions) (all : List (List Nat)) :
    ∀ rest : List (List Nat), (raKept options all rest).length ≤ rest.length := by
  intro rest
  exact List.length_filter_le _ _

theorem raPass2_spec (options : DeduplicationOptions) (all : List (List Nat))
    (counts : List (List Nat × Nat)) (hinv : SeenInv options all counts) :
    ∀ rest : List (List Nat),
      raPass2 options counts rest
        = (raOutRel options all rest, (raKept options all rest).length,
           rest.length - (raKept options all rest).length) := by
  intro rest
  induction rest with
  | nil => rfl
  | cons l ls ih =>
    have hget : (alGet (keyOf options l) counts).getD 0
        = countKey options all (keyOf options l) := hinv.getD _
    have hkle := raKept_length_le options all ls
    rcases hp : raPass2 options counts ls with ⟨o, w, r⟩
    have hcomp := hp.symm.trans ih
    obtain ⟨ho, hw, hr⟩ : o = raOutRel options all ls
        ∧ w = (raKept options all ls).length
        ∧ r = ls.length - (raKept options all ls).length := by
      simpa [Prod.ext_iff] using hcomp
    by_cases h : countKey options all (keyOf options l) = 1
    · have hb : (countKey options all (keyOf options l) == 1) = true := by simp [h]
      have hc1 : (alGet (keyOf options l) counts).getD 0 = 1 := by rw [hget]; exact h
      have hred : raPass2 options counts (l :: ls)
          = (((if options.count then
                fmtCount ((alGet (keyOf options l) counts).getD 0) else []) ++ l)
              ++ o, w + 1, r) := by
        simp only [raPass2, hp]
        rw [if_pos hc1]
      rw [hred, hc1]
      simp only [Prod.mk.injEq]
      refine ⟨?_, ?_, ?_⟩
      · rw [ho]
        simp only [raOutRel, if_pos h]
      · rw [hw]
        simp [raKept, List.filter_cons, hb]
      · rw [hr]
        have h2 : raKept options all (l :: ls) = l :: raKept options all ls := by
          simp [raKept, List.filter_cons, hb]
        rw [h2]
        simp only [List.length_cons]
        omega
    · have hb : (countKey options all (keyOf options l) == 1) = false := by simp [h]
      have hc1 : ¬((alGet (keyOf options l) counts).getD 0 = 1) := by rw [hget]; exact h
      have hred : raPass2 options counts (l :: ls)
          = ((if options.show_removed then marker ++ l else []) ++ o, w, r + 1) := by
        simp only [raPass2, hp]
        rw [if_neg hc1]
      rw [hred]
      simp only [Prod.mk.injEq]
      refine ⟨?_, ?_, ?_⟩
      · rw [ho]
        simp only [raOutRel, if_neg h]
      · rw [hw]
        simp [raKept, List.filter_cons, hb]
      · rw [hr]
        have h2 : raKept options all (l :: ls) = raKept options all ls := by
          simp [raKept, List.filter_cons, hb]
        rw [h2]
        simp only [List.length_cons]
        omega

/-- Characterization of `deduplicate_remove_all`. -/
theorem dedupRemoveAll_spec (input : List Nat) (options : DeduplicationOptions) :
    (dedupRemoveAll input options).output
      = raOutRel options (readLines input) (readLines input)
    ∧ (dedupRemoveAll input options).stats.lines_read = (readLines input).length
    ∧ (dedupRemoveAll input options).stats.lines_written
        = (raKept options (readLines input) (readLines input)).length
    ∧ (dedupRemoveAll input options).stats.lines_written
        + (dedupRemoveAll input options).stats.lines_removed
        = (readLines input).length := by
  obtain ⟨h1, h2, h3⟩ := raPass1_spec options (readLines input) ⟨[], [], 0⟩
    (seenInv_nil options)
  rw [List.nil_append] at h1 h3
  have hp2 := raPass2_spec options (readLines input) _ h3
    (raPass1 options (readLines input) ⟨[], [], 0⟩).lines
  rw [h1] at hp2
  have hkle := raKept_length_le options (readLines input) (readLines input)
  constructor
  · show (raPass2 options _ (raPass1 options (readLines input) ⟨[], [], 0⟩).lines).1 = _
    rw [h1, hp2]
  · refine ⟨by simpa using h2, ?_, ?_⟩
    · show (raPass2 options _ (raPass1 options (readLines input) ⟨[], [], 0⟩).lines).2.1 = _
      rw [h1, hp2]
    · show (raPass2 options _ (raPass1 options (readLines input) ⟨[], [], 0⟩).lines).2.1
        + (raPass2 options _ (raPass1 options (readLines input) ⟨[], [], 0⟩).lines).2.2 = _
      rw [h1, hp2]
      simp only
      omega

theorem raKept_mem {options : DeduplicationOptions} {all rest : List (List Nat)}
    {l : List Nat} (h : l ∈ raKept options all rest) :
    countKey options all (keyOf options l) = 1 := by
  have := (List.mem_filter.mp h).2
  simpa using this

/-! ## Statistics balance of the disk-backed engines -/

theorem kfDiskLoop_balance (options : DeduplicationOptions) :
    ∀ (ls : List (List Nat)) (st : KFDiskState),
      (kfDiskLoop options ls st).written + (kfDiskLoop options ls st).removed
        = st.written + st.removed + ls.length
      ∧ (kfDiskLoop options ls st).read = st.read + ls.length := by
  intro ls
  induction ls with
  | nil => intro st; simp [kfDiskLoop]
  | cons l ls ih =>
    intro st
    constructor
    · simp only [kfDiskLoop]
      split
      · rw [(ih _).1]
        simp only [List.length_cons]
        show st.written + 1 + st.removed + ls.length
          = st.written + st.removed + (ls.length + 1)
        omega
      · rw [(ih _).1]
        simp only [List.length_cons]
        show st.written + (st.removed + 1) + ls.length
          = st.written + st.removed + (ls.length + 1)
        omega
    · simp only [kfDiskLoop]
      split
      · rw [(ih _).2]
        simp only [List.length_cons]
        show st.read + 1 + ls.length = st.read + (ls.length + 1)
        omega
      · rw [(ih _).2]
        simp only [List.length_cons]
        show st.read + 1 + ls.length = st.read + (ls.length + 1)
        omega

theorem klDiskPass1_read (options : DeduplicationOptions) :
    ∀ (ls : List (List Nat)) (i : Nat) (db : List (List Nat × List Nat)),
      (klDiskPass1 options ls i db).2 = i + ls.length := by
  intro ls
  induction ls with
  | nil => intro i db; simp [klDiskPass1]
  | cons l ls ih =>
    intro i db
    simp only [klDiskPass1, ih, List.length_cons]
    omega

theorem raDiskPass1_read (options : DeduplicationOptions) :
    ∀ (ls : List (List Nat)) (i : Nat) (db : List (List Nat × List Nat)),
      (raDiskPass1 options ls i db).2 = i + ls.length := by
  intro ls
  induction ls with
  | nil => intro i db; simp [raDiskPass1]
  | cons l ls ih =>
    intro i db
    simp only [raDiskPass1, ih, List.length_cons]
    omega

theorem klDiskPass1_mono (options : DeduplicationOptions) :
    ∀ (ls : List (List Nat)) (i : Nat) (db : List (List Nat × List Nat)) (k : List Nat),
      (alGet k db).isSome → (alGet k (klDiskPass1 options ls i db).1).isSome := by
  intro ls
  induction ls with
  | nil => intro i db k h; simpa [klDiskPass1] using h
  | cons l ls ih =>
    intro i db k h
    exact ih _ _ _ (alGet_isSome_alInsert _ _ h)

theorem klDiskPass1_presence (options : DeduplicationOptions) :
    ∀ (ls : List (List Nat)) (i : Nat) (db : List (List Nat × List Nat)) (l : List Nat),
      l ∈ ls → (alGet (keyOf options l) (klDiskPass1 options ls i db).1).isSome := by
  intro ls
  induction ls with
  | nil => intro i db l h; simp at h
  | cons l0 ls ih =>
    intro i db l h
    rcases List.mem_cons.mp h with h | h
    · subst h
      exact klDiskPass1_mono options ls _ _ _
        (by rw [alGet_alInsert_self]; rfl)
    · exact ih _ _ _ h

theorem klDiskPass1_vals16 (options : DeduplicationOptions) :
    ∀ (ls : List (List Nat)) (i : Nat) (db : List (List Nat × List Nat)),
      (∀ e ∈ db, (e.2 : List Nat).length = 16) →
      ∀ e ∈ (klDiskPass1 options ls i db).1, (e.2 : List Nat).length = 16 := by
  intro ls
  induction ls with
  | nil => intro i db h; simpa [klDiskPass1] using h
  | cons l ls ih =>
    intro i db h
    refine ih _ _ ?_
    intro e he
    rcases mem_alInsert he with h2 | h2
    · rw [h2]
      simp [encodeLE64]
    · exact h e h2

theorem klDiskPass2_balance (options : DeduplicationOptions)
    (db : List (List Nat × List Nat)) (h16 : ∀ e ∈ db, (e.2 : List Nat).length = 16) :
    ∀ (rest : List (List Nat)) (i : Nat),
      (∀ l ∈ rest, (alGet (keyOf options l) db).isSome) →
      (klDiskPass2 options db i rest).2.1 + (klDiskPass2 options db i rest).2.2
        = rest.length := by
  intro rest
  induction rest with
  | nil => intro i _; simp [klDiskPass2]
  | cons l ls ih =>
    intro i hall
    have hsome := hall l (List.mem_cons_self _ _)
    have ihb := ih (i + 1) (fun l2 h2 => hall l2 (List.mem_cons_of_mem _ h2))
    rcases hp : klDiskPass2 options db (i + 1) ls with ⟨o, w, r⟩
    rw [hp] at ihb
    rcases hv : alGet (keyOf options l) db with _ | v
    · rw [hv] at hsome; simp at hsome
    · have hvl : v.length = 16 := h16 _ (alGet_mem hv)
      have ihb2 : w + r = ls.length := ihb
      by_cases hidx : i % 18446744073709551616 = decodeLE64 (v.take 8)
      · have hred : klDiskPass2 options db i (l :: ls)
            = (((if options.count then fmtCount (decodeLE64 (v.drop 8)) else []) ++ l)
                ++ o, w + 1, r) := by
          simp only [klDiskPass2, hp, hv]
          rw [if_pos hvl, if_pos hidx]
        rw [hred]
        show w + 1 + r = (l :: ls).length
        simp only [List.length_cons]
        omega
      · have hred : klDiskPass2 options db i (l :: ls)
            = ((if options.show_removed then marker ++ l else []) ++ o, w, r + 1) := by
          simp only [klDiskPass2, hp, hv]
          rw [if_pos hvl, if_neg hidx]
        rw [hred]
        show w + (r + 1) = (l :: ls).length
        simp only [List.length_cons]
        omega

theorem raDiskPass1_mono (options : DeduplicationOptions) :
    ∀ (ls : List (List Nat)) (i : Nat) (db : List (List Nat × List Nat)) (k : List Nat),
      (alGet k db).isSome → (alGet k (raDiskPass1 options ls i db).1).isSome := by
  intro ls
  induction ls with
  | nil => intro i db k h; simpa [raDiskPass1] using h
  | cons l ls ih =>
    intro i db k h
    exact ih _ _ _ (alGet_isSome_alInsert _ _ h)

theorem raDiskPass1_presence (options : DeduplicationOptions) :
    ∀ (ls : List (List Nat)) (i : Nat) (db : List (List Nat × List Nat)) (l : List Nat),
      l ∈ ls → (alGet (keyOf options l) (raDiskPass1 options ls i db).1).isSome := by
  intro ls
  induction ls with
  | nil => intro i db l h; simp at h
  | cons l0 ls ih =>
    intro i db l h
    rcases List.mem_cons.mp h with h | h
    · subst h
      exact raDiskPass1_mono options ls _ _ _
        (by rw [alGet_alInsert_self]; rfl)
    · exact ih _ _ _ h

theorem raDiskPass2_balance (options : DeduplicationOptions)
    (db : List (List Nat × List Nat)) :
    ∀ rest : List (List Nat),
      (∀ l ∈ rest, (alGet (keyOf options l) db).isSome) →
      (raDiskPass2 options db rest).2.1 + (raDiskPass2 options db rest).2.2
        = rest.length := by
  intro rest
  induction rest with
  | nil => intro _; simp [raDiskPass2]
  | cons l ls ih =>
    intro hall
    have hsome := hall l (List.mem_cons_self _ _)
    have ihb := ih (fun l2 h2 => hall l2 (List.mem_cons_of_mem _ h2))
    rcases hp : raDiskPass2 options db ls with ⟨o, w, r⟩
    rw [hp] at ihb
    rcases hv : alGet (keyOf options l) db with _ | v
    · rw [hv] at hsome; simp at hsome
    · have ihb2 : w + r = ls.length := ihb
      by_cases hc : decodeLE64 v = 1
      · have hred : raDiskPass2 options db (l :: ls)
            = (((if options.count then fmtCount (decodeLE64 v) else []) ++ l)
                ++ o, w + 1, r) := by
          simp only [raDiskPass2, hp, hv]
          rw [if_pos hc]
        rw [hred]
        show w + 1 + r = (l :: ls).length
        simp only [List.length_cons]
        omega
      · have hred : raDiskPass2 options db (l :: ls)
            = ((if options.show_removed then marker ++ l else []) ++ o, w, r + 1) := by
          simp only [raDiskPass2, hp, hv]
          rw [if_neg hc]
        rw [hred]
        show w + (r + 1) = (l :: ls).length
        simp only [List.length_cons]
        omega

/-! ## Chunk well-formedness and `readLines` structure -/

/-- No newline byte occurs in the list. -/
def NoNl (c : List Nat) : Prop := ∀ b ∈ c, b ≠ 10

/-- A chunk consisting of a newline-free body and a final `\n`. -/
def Terminated (c : List Nat) : Prop := ∃ body, c = body ++ [10] ∧ NoNl body

/-- Shape of a chunk list as produced by `readLines`: every chunk but
possibly the last is newline-terminated; a final unterminated chunk is
nonempty and newline-free. -/
def GoodChunks : List (List Nat) → Prop
  | [] => True
  | [c] => Terminated c ∨ (c ≠ [] ∧ NoNl c)
  | c :: cs => Terminated c ∧ GoodChunks cs

theorem goodChunks_tail {c : List Nat} {cs : List (List Nat)}
    (h : GoodChunks (c :: cs)) : GoodChunks cs := by
  cases cs with
  | nil => trivial
  | cons c' cs' =>
    simp only [GoodChunks] at h
    exact h.2

theorem readLinesAux_term (r : List Nat) :
    ∀ (body acc : List Nat), NoNl body →
      readLinesAux acc (body ++ 10 :: r)
        = (acc.reverse ++ (body ++ [10])) :: readLinesAux [] r := by
  intro body
  induction body with
  | nil =>
    intro acc _
    simp [readLinesAux]
  | cons b body ih =>
    intro acc hnl
    have hb : b ≠ 10 := hnl b (List.mem_cons_self _ _)
    have hnl' : NoNl body := fun x hx => hnl x (List.mem_cons_of_mem _ hx)
    show readLinesAux acc ((b :: body) ++ 10 :: r) = _
    rw [List.cons_append,
      show readLinesAux acc (b :: (body ++ 10 :: r))
        = readLinesAux (b :: acc) (body ++ 10 :: r) from by simp [readLinesAux, hb],
      ih (b :: acc) hnl']
    simp [List.append_assoc]

theorem readLinesAux_unterm :
    ∀ (body acc : List Nat), NoNl body → acc.reverse ++ body ≠ [] →
      readLinesAux acc body = [acc.reverse ++ body] := by
  intro body
  induction body with
  | nil =>
    intro acc _ hne
    have : ¬acc.isEmpty := by
      simp only [List.append_nil] at hne
      simp only [List.isEmpty_iff]
      intro h
      exact hne (by simp [h])
    simp [readLinesAux, this]
  | cons b body ih =>
    intro acc hnl hne
    have hb : b ≠ 10 := hnl b (List.mem_cons_self _ _)
    have hnl' : NoNl body := fun x hx => hnl x (List.mem_cons_of_mem _ hx)
    have hne' : (b :: acc).reverse ++ body ≠ [] := by simp
    simp only [readLinesAux, if_neg hb, ih (b :: acc) hnl' hne', List.reverse_cons]
    simp [List.append_assoc]

theorem readLinesAux_good :
    ∀ (rest acc : List Nat), NoNl acc → GoodChunks (readLinesAux acc rest) := by
  intro rest
  induction rest with
  | nil =>
    intro acc hacc
    by_cases he : acc.isEmpty
    · simp [readLinesAux, he, GoodChunks]
    · simp only [readLinesAux, he, if_false, Bool.false_eq_true]
      right
      refine ⟨by simpa using he, ?_⟩
      intro b hb
      exact hacc b (by simpa using hb)
  | cons b rest ih =>
    intro acc hacc
    by_cases hb : b = 10
    · subst hb
      have hterm : Terminated (acc.reverse ++ [10]) :=
        ⟨acc.reverse, rfl, fun x hx => hacc x (by simpa using hx)⟩
      have hrec : GoodChunks (readLinesAux [] rest) := ih [] (by intro x hx; simp at hx)
      simp only [readLinesAux, if_pos rfl]
      rcases hshape : readLinesAux [] rest with _ | ⟨x, xs⟩
      · simp only [GoodChunks]
        exact Or.inl hterm
      · rw [hshape] at hrec
        simp only [GoodChunks]
        exact ⟨hterm, hrec⟩
    · simp only [readLinesAux, if_neg hb]
      refine ih (b :: acc) ?_
      intro x hx
      rcases List.mem_cons.mp hx with h | h
      · rw [h]; exact hb
      · exact hacc x h

theorem readLines_good (input : List Nat) : GoodChunks (readLines input) :=
  readLinesAux_good input [] (by intro x hx; simp at hx)

theorem gc_sublist :
    ∀ {ds cs : List (List Nat)}, ds.Sublist cs → GoodChunks cs → GoodChunks ds := by
  intro ds cs h
  induction h with
  | slnil => intro _; trivial
  | cons a h ih =>
    intro hg
    exact ih (goodChunks_tail hg)
  | @cons₂ l₁ l₂ a h ih =>
    intro hg
    cases l₂ with
    | nil =>
      have : l₁ = [] := List.sublist_nil.mp h
      subst this
      exact hg
    | cons c cs' =>
      simp only [GoodChunks] at hg
      have hrec := ih hg.2
      cases l₁ with
      | nil =>
        simp only [GoodChunks]
        exact Or.inl hg.1
      | cons d ds' =>
        simp only [GoodChunks]
        exact ⟨hg.1, hrec⟩

theorem flat_cons (x : List Nat) (xs : List (List Nat)) :
    flat (x :: xs) = x ++ flat xs := rfl

theorem readLines_flat :
    ∀ cs : List (List Nat), GoodChunks cs → readLines (flat cs) = cs := by
  intro cs
  induction cs with
  | nil => intro _; rfl
  | cons c cs ih =>
    intro hg
    cases cs with
    | nil =>
      simp only [GoodChunks] at hg
      rcases hg with ⟨body, rfl, hb⟩ | ⟨hne, hnl⟩
      · show readLinesAux [] (flat [body ++ [10]]) = _
        have : flat [body ++ [10]] = body ++ 10 :: [] := by
          simp [flat]
        rw [this, readLinesAux_term [] body [] hb]
        simp [readLinesAux]
      · show readLinesAux [] (flat [c]) = _
        have : flat [c] = c := by simp [flat]
        rw [this, readLinesAux_unterm c [] hnl (by simpa using hne)]
        simp
    | cons c' cs' =>
      simp only [GoodChunks] at hg
      obtain ⟨⟨body, rfl, hb⟩, hg2⟩ := hg
      show readLinesAux [] (flat ((body ++ [10]) :: c' :: cs')) = _
      have : flat ((body ++ [10]) :: c' :: cs') = body ++ 10 :: flat (c' :: cs') := by
        simp [flat_cons, List.append_assoc]
      rw [this, readLinesAux_term (flat (c' :: cs')) body [] hb]
      have := ih hg2
      rw [show readLinesAux [] (flat (c' :: cs')) = readLines (flat (c' :: cs')) from rfl,
        this]
      simp

theorem readLines_split (pre last : List Nat)
    (hpre : pre = [] ∨ pre.getLast? = some 10) (hne : last ≠ []) (hnl : NoNl last) :
    readLines (pre ++ last) = readLines pre ++ [last] := by
  have hlast : readLinesAux [] last = [last] :=
    readLinesAux_unterm last [] hnl (by simpa using hne)
  rcases hpre with rfl | hterm
  · simp only [List.nil_append]
    rw [show readLines last = readLinesAux [] last from rfl, hlast]
    rfl
  · have haux : ∀ (p t acc : List Nat), p.getLast? = some 10 →
        readLinesAux acc (p ++ t) = readLinesAux acc p ++ readLinesAux [] t := by
      intro p
      induction p with
      | nil => intro t acc h; simp at h
      | cons b p ih =>
        intro t acc h
        cases p with
        | nil =>
          simp only [List.getLast?_singleton] at h
          have hb : b = 10 := by simpa using h
          subst hb
          simp [readLinesAux]
        | cons b2 p2 =>
          have h2 : (b2 :: p2).getLast? = some 10 := by
            rwa [List.getLast?_cons_cons] at h
          by_cases hb : b = 10
          · subst hb
            show readLinesAux acc ((10 :: b2 :: p2) ++ t) = _
            rw [List.cons_append,
              show readLinesAux acc (10 :: ((b2 :: p2) ++ t))
                = (acc.reverse ++ [10]) :: readLinesAux [] ((b2 :: p2) ++ t) from by
                  simp [readLinesAux],
              ih t [] h2,
              show readLinesAux acc (10 :: b2 :: p2)
                = (acc.reverse ++ [10]) :: readLinesAux [] (b2 :: p2) from by
                  simp [readLinesAux]]
            simp
          · show readLinesAux acc ((b :: b2 :: p2) ++ t) = _
            rw [List.cons_append,
              show readLinesAux acc (b :: ((b2 :: p2) ++ t))
                = readLinesAux (b :: acc) ((b2 :: p2) ++ t) from by
                  simp [readLinesAux, hb],
              ih t (b :: acc) h2,
              show readLinesAux acc (b :: b2 :: p2)
                = readLinesAux (b :: acc) (b2 :: p2) from by simp [readLinesAux, hb]]
    rw [show readLines (pre ++ last) = readLinesAux [] (pre ++ last) from rfl,
      haux pre last [] hterm, hlast]
    rfl

theorem stripTerm_of_noNl {last : List Nat} (hnl : NoNl last) :
    stripTerm last = last := by
  have : last.getLast? ≠ some 10 := by
    intro h
    obtain ⟨hne', heq⟩ := List.mem_getLast?_eq_getLast (Option.mem_def.mpr h)
    exact hnl 10 (heq ▸ List.getLast_mem hne') rfl
  simp [stripTerm, this]

/-! ## Declarative counting and idempotence lemmas -/

theorem kfKept_countP (options : DeduplicationOptions) (k : List Nat) :
    ∀ (ls prev : List (List Nat)),
      (kfKept options prev ls).countP (fun l => keyOf options l == k)
        = if countKey options prev k = 0 ∧ 0 < countKey options ls k then 1 else 0 := by
  intro ls
  induction ls with
  | nil =>
    intro prev
    simp [kfKept, countKey]
  | cons l ls ih =>
    intro prev
    rw [countKey_cons]
    by_cases h : countKey options prev (keyOf options l) = 0
    · simp only [kfKept, if_pos h, List.countP_cons, ih (prev ++ [l])]
      by_cases hk : keyOf options l = k
      · subst hk
        have hprev1 : countKey options (prev ++ [l]) (keyOf options l) ≠ 0 := by
          rw [countKey_snoc]
          simp
        simp [hprev1, h]
      · have hprev2 : countKey options (prev ++ [l]) k = countKey options prev k := by
          rw [countKey_snoc, if_neg hk, Nat.add_zero]
        rw [hprev2]
        simp [hk]
    · simp only [kfKept, if_neg h, ih (prev ++ [l])]
      by_cases hk : keyOf options l = k
      · subst hk
        have hprev1 : countKey options (prev ++ [l]) (keyOf options l) ≠ 0 := by
          rw [countKey_snoc]
          simp
        simp [hprev1, h]
      · have hprev2 : countKey options (prev ++ [l]) k = countKey options prev k := by
          rw [countKey_snoc, if_neg hk, Nat.add_zero]
        rw [hprev2]
        simp [hk]

theorem klKeptRel_countP (options : DeduplicationOptions) (k : List Nat) :
    ∀ ls : List (List Nat),
      (klKeptRel options ls).countP (fun l => keyOf options l == k)
        = if 0 < countKey options ls k then 1 else 0 := by
  intro ls
  induction ls with
  | nil => simp [klKeptRel, countKey]
  | cons l ls ih =>
    rw [countKey_cons]
    by_cases h : countKey options ls (keyOf options l) = 0
    · simp only [klKeptRel, if_pos h, List.countP_cons, ih]
      by_cases hk : keyOf options l = k
      · subst hk
        simp [h]
      · simp [hk]
    · simp only [klKeptRel, if_neg h, ih]
      by_cases hk : keyOf options l = k
      · subst hk
        have : 0 < countKey options ls (keyOf options l) := Nat.pos_of_ne_zero h
        simp [this]
      · simp [hk]

theorem kfMainOut_plain {options : DeduplicationOptions}
    (hcnt : options.count = false) (hsr : options.show_removed = false) :
    ∀ (ls prev : List (List Nat)),
      kfMainOut options prev ls = flat (kfKept options prev ls) := by
  intro ls
  induction ls with
  | nil => intro prev; rfl
  | cons l ls ih =>
    intro prev
    by_cases h : countKey options prev (keyOf options l) = 0
    · simp [kfMainOut, kfKept, if_pos h, hcnt, flat_cons, ih (prev ++ [l])]
    · simp [kfMainOut, kfKept, if_neg h, hsr, ih (prev ++ [l])]

theorem klOutRel_plain {options : DeduplicationOptions}
    (hcnt : options.count = false) (hsr : options.show_removed = false)
    (all : List (List Nat)) :
    ∀ ls : List (List Nat), klOutRel options all ls = flat (klKeptRel options ls) := by
  intro ls
  induction ls with
  | nil => rfl
  | cons l ls ih =>
    by_cases h : countKey options ls (keyOf options l) = 0
    · simp [klOutRel, klKeptRel, if_pos h, hcnt, flat_cons, ih]
    · simp [klOutRel, klKeptRel, if_neg h, hsr, ih]

theorem raOutRel_plain {options : DeduplicationOptions}
    (hcnt : options.count = false) (hsr : options.show_removed = false)
    (all : List (List Nat)) :
    ∀ ls : List (List Nat), raOutRel options all ls = flat (raKept options all ls) := by
  intro ls
  induction ls with
  | nil => rfl
  | cons l ls ih =>
    by_cases h : countKey options all (keyOf options l) = 1
    · have hb : (countKey options all (keyOf options l) == 1) = true := by simp [h]
      simp [raOutRel, raKept, if_pos h, hcnt, List.filter_cons, hb, flat_cons, ih]
    · have hb : (countKey options all (keyOf options l) == 1) = false := by simp [h]
      simp [raOutRel, raKept, if_neg h, hsr, List.filter_cons, hb, ih]

theorem kfKept_congr (options : DeduplicationOptions) :
    ∀ (ls prev prev' : List (List Nat)),
      (∀ k, countKey options prev k = 0 ↔ countKey options prev' k = 0) →
      kfKept options prev ls = kfKept options prev' ls := by
  intro ls
  induction ls with
  | nil => intro prev prev' _; rfl
  | cons l ls ih =>
    intro prev prev' hiff
    have hstep : ∀ k, countKey options (prev ++ [l]) k = 0
        ↔ countKey options (prev' ++ [l]) k = 0 := by
      intro k
      rw [countKey_snoc, countKey_snoc]
      constructor
      · intro h
        have h1 : countKey options prev k = 0 := by omega
        have h2 : (if keyOf options l = k then 1 else 0) = 0 := by omega
        rw [(hiff k).mp h1, h2]
      · intro h
        have h1 : countKey options prev' k = 0 := by omega
        have h2 : (if keyOf options l = k then 1 else 0) = 0 := by omega
        rw [(hiff k).mpr h1, h2]
    by_cases h : countKey options prev (keyOf options l) = 0
    · have h' := (hiff _).mp h
      simp [kfKept, if_pos h, if_pos h', ih (prev ++ [l]) (prev' ++ [l]) hstep]
    · have h' : ¬countKey options prev' (keyOf options l) = 0 := fun hc => h ((hiff _).mpr hc)
      simp [kfKept, if_neg h, if_neg h', ih (prev ++ [l]) (prev' ++ [l]) hstep]

theorem kfKept_idem (options : DeduplicationOptions) :
    ∀ (ls prev : List (List Nat)),
      kfKept options prev (kfKept options prev ls) = kfKept options prev ls := by
  intro ls
  induction ls with
  | nil => intro prev; rfl
  | cons l ls ih =>
    intro prev
    by_cases h : countKey options prev (keyOf options l) = 0
    · simp only [kfKept, if_pos h]
      rw [ih (prev ++ [l])]
    · simp only [kfKept, if_neg h]
      have hiff : ∀ k, countKey options prev k = 0
          ↔ countKey options (prev ++ [l]) k = 0 := by
        intro k
        rw [countKey_snoc]
        by_cases hk : keyOf options l = k
        · subst hk
          constructor
          · intro hc; exact absurd hc h
          · intro hc; omega
        · simp [hk]
      rw [kfKept_congr options (kfKept options (prev ++ [l]) ls) prev (prev ++ [l]) hiff,
        ih (prev ++ [l])]

theorem kfMainOut_append (options : DeduplicationOptions) :
    ∀ (xs ys prev : List (List Nat)),
      kfMainOut options prev (xs ++ ys)
        = kfMainOut options prev xs ++ kfMainOut options (prev ++ xs) ys := by
  intro xs
  induction xs with
  | nil => intro ys prev; simp [kfMainOut]
  | cons x xs ih =>
    intro ys prev
    simp only [List.cons_append, kfMainOut, List.append_eq, ih ys (prev ++ [x]),
      List.append_assoc, List.singleton_append, List.nil_append]

theorem klOutRel_ends (options : DeduplicationOptions) (all : List (List Nat))
    (l : List Nat) :
    ∀ xs : List (List Nat), ∃ rest : List Nat,
      klOutRel options all (xs ++ [l])
        = rest ++ ((if options.count then
            fmtCount (countKey options all (keyOf options l)) else []) ++ l) := by
  intro xs
  induction xs with
  | nil =>
    refine ⟨[], ?_⟩
    simp [klOutRel, countKey]
  | cons x xs ih =>
    obtain ⟨rest, hrest⟩ := ih
    refine ⟨(if countKey options (xs ++ [l]) (keyOf options x) = 0 then
        (if options.count then fmtCount (countKey options all (keyOf options x)) else []) ++ x
       else if options.show_removed then marker ++ x else []) ++ rest, ?_⟩
    simp only [List.cons_append, klOutRel, List.append_eq, hrest, List.append_assoc]

/-! ## Sanity checks: the unit tests of src/lib.rs replayed on the model -/

/- `test_keep_first_basic`: "a\nb\na\nc\n" -/
example :
    (deduplicate [97, 10, 98, 10, 97, 10, 99, 10] defaultOptions).2
      = [97, 10, 98, 10, 99, 10] := by decide

example :
    (deduplicate [97, 10, 98, 10, 97, 10, 99, 10] defaultOptions).1
      = Except.ok ⟨4, 3, 1, 3⟩ := by decide

/- `test_ignore_case`: "Apple\napple\nBanana\n" -/
example :
    (deduplicate
      [65, 112, 112, 108, 101, 10, 97, 112, 112, 108, 101, 10, 66, 97, 110, 97, 110, 97, 10]
      { defaultOptions with ignore_case := true }).2
      = [65, 112, 112, 108, 101, 10, 66, 97, 110, 97, 110, 97, 10] := by decide

example :
    (deduplicate
      [65, 112, 112, 108, 101, 10, 97, 112, 112, 108, 101, 10, 66, 97, 110, 97, 110, 97, 10]
      { defaultOptions with ignore_case := true }).1
      = Except.ok ⟨3, 2, 1, 2⟩ := by decide

/- `test_keep_last`: "a\nb\na\nc\n" -/
example :
    (deduplicate [97, 10, 98, 10, 97, 10, 99, 10]
      { defaultOptions with mode := .KeepLast }).2
      = [98, 10, 97, 10, 99, 10] := by decide

/- `test_remove_all`: "a\nb\na\nc\n" -/
example :
    (deduplicate [97, 10, 98, 10, 97, 10, 99, 10]
      { defaultOptions with mode := .RemoveAll }).2
      = [98, 10, 99, 10] := by decide

example :
    (deduplicate [97, 10, 98, 10, 97, 10, 99, 10]
      { defaultOptions with mode := .RemoveAll }).1
      = Except.ok ⟨4, 2, 2, 2⟩ := by decide

/- `test_empty_input` -/
example : (deduplicate [] defaultOptions).1 = Except.ok ⟨0, 0, 0, 0⟩ := by decide

/- `test_non_utf8`: [0xFF, 0xFE, '\n', 0xFF, 0xFE, '\n', 'a', '\n'] -/
example :
    (deduplicate [255, 254, 10, 255, 254, 10, 97, 10] defaultOptions).1
      = Except.ok ⟨3, 2, 1, 2⟩ := by decide

/- `test_disk_backed_keep_first` -/
example :
    (deduplicate [97, 10, 98, 10, 97, 10, 99, 10]
      { defaultOptions with use_disk := true }).2
      = [97, 10, 98, 10, 99, 10] := by decide

/- `test_disk_backed_keep_last` (via `deduplicate_seekable`) -/
example :
    (deduplicate_seekable [97, 10, 98, 10, 97, 10, 99, 10]
      { defaultOptions with mode := .KeepLast, use_disk := true }).2
      = [98, 10, 97, 10, 99, 10] := by decide

/- `test_disk_backed_remove_all` (via `deduplicate_seekable`) -/
example :
    (deduplicate_seekable [97, 10, 98, 10, 97, 10, 99, 10]
      { defaultOptions with mode := .RemoveAll, use_disk := true }).1
      = Except.ok ⟨4, 2, 2, 2⟩ := by decide

/- spec section 8, column mode: keying on column 1 of
"1\tapple\n2\tbanana\n1\torange\n" keeps the first two lines. -/
example :
    (deduplicate
      [49, 9, 97, 112, 112, 108, 101, 10, 50, 9, 98, 97, 110, 97, 110, 97, 10,
       49, 9, 111, 114, 97, 110, 103, 101, 10]
      { defaultOptions with column := some 1 }).2
      = [49, 9, 97, 112, 112, 108, 101, 10, 50, 9, 98, 97, 110, 97, 110, 97, 10] := by decide

/- spec section 8, count-prefixed keep-last on "a\nb\na\n" -/
example :
    (deduplicate [97, 10, 98, 10, 97, 10]
      { defaultOptions with mode := .KeepLast, count := true }).2
      = [32, 32, 32, 32, 32, 32, 49, 32, 98, 10, 32, 32, 32, 32, 32, 32, 50, 32, 97, 10] := by
  decide

/-! ## Engine-level balance corollaries for the disk engines -/

theorem dedupKeepFirstDisk_balance (input : List Nat) (options : DeduplicationOptions) :
    (dedupKeepFirstDisk input options).stats.lines_written
      + (dedupKeepFirstDisk input options).stats.lines_removed
      = (dedupKeepFirstDisk input options).stats.lines_read := by
  have h := kfDiskLoop_balance options (readLines input) ⟨[], [], [], 0, 0, 0⟩
  simp only at h
  show (kfDiskLoop options (readLines input) ⟨[], [], [], 0, 0, 0⟩).written
      + (kfDiskLoop options (readLines input) ⟨[], [], [], 0, 0, 0⟩).removed
    = (kfDiskLoop options (readLines input) ⟨[], [], [], 0, 0, 0⟩).read
  omega

theorem dedupKeepLastDisk_balance (input : List Nat) (options : DeduplicationOptions) :
    (dedupKeepLastDisk input options).stats.lines_written
      + (dedupKeepLastDisk input options).stats.lines_removed
      = (dedupKeepLastDisk input options).stats.lines_read := by
  rcases hp1 : klDiskPass1 options (readLines input) 0 [] with ⟨db, read⟩
  rcases hp2 : klDiskPass2 options db 0 (readLines input) with ⟨o, w, r⟩
  have hred : dedupKeepLastDisk input options
      = ⟨⟨read, w, r, db.length⟩, o⟩ := by
    simp only [dedupKeepLastDisk, hp1, hp2]
  rw [hred]
  have hr0 := klDiskPass1_read options (readLines input) 0 []
  rw [hp1] at hr0
  have hread : read = (readLines input).length := by simpa using hr0
  have hdb : (klDiskPass1 options (readLines input) 0 []).1 = db := by rw [hp1]
  have h16 : ∀ e ∈ db, (e.2 : List Nat).length = 16 := by
    intro e he
    refine klDiskPass1_vals16 options (readLines input) 0 [] ?_ e (by rw [hdb]; exact he)
    intro e2 he2
    simp at he2
  have hpres : ∀ l ∈ readLines input, (alGet (keyOf options l) db).isSome := by
    intro l hl
    have := klDiskPass1_presence options (readLines input) 0 [] l hl
    rwa [hdb] at this
  have hbal := klDiskPass2_balance options db h16 (readLines input) 0 hpres
  rw [hp2] at hbal
  have hwr : w + r = (readLines input).length := hbal
  show w + r = read
  omega

theorem dedupRemoveAllDisk_balance (input : List Nat) (options : DeduplicationOptions) :
    (dedupRemoveAllDisk input options).stats.lines_written
      + (dedupRemoveAllDisk input options).stats.lines_removed
      = (dedupRemoveAllDisk input options).stats.lines_read := by
  rcases hp1 : raDiskPass1 options (readLines input) 0 [] with ⟨db, read⟩
  rcases hp2 : raDiskPass2 options db (readLines input) with ⟨o, w, r⟩
  have hred : dedupRemoveAllDisk input options
      = ⟨⟨read, w, r, (db.map Prod.snd).countP (fun v => decodeLE64 v == 1)⟩, o⟩ := by
    simp only [dedupRemoveAllDisk, hp1, hp2]
  rw [hred]
  have hr0 := raDiskPass1_read options (readLines input) 0 []
  rw [hp1] at hr0
  have hread : read = (readLines input).length := by simpa using hr0
  have hdb : (raDiskPass1 options (readLines input) 0 []).1 = db := by rw [hp1]
  have hpres : ∀ l ∈ readLines input, (alGet (keyOf options l) db).isSome := by
    intro l hl
    have := raDiskPass1_presence options (readLines input) 0 [] l hl
    rwa [hdb] at this
  have hbal := raDiskPass2_balance options db (readLines input) hpres
  rw [hp2] at hbal
  have hwr : w + r = (readLines input).length := hbal
  show w + r = read
  omega

/-! ## The claims -/

/-- Claim C1: for every input byte stream and configuration, whenever
`deduplicate` (or `deduplicate_seekable`) returns `Ok(stats)`, the invariant
`lines_written + lines_removed = lines_read` holds. -/
theorem claim_C1_stats_balance :
    ∀ (input : List Nat) (options : DeduplicationOptions),
      (∀ (s : DeduplicationStats) (out : List Nat),
        deduplicate input options = (Except.ok s, out) →
        s.lines_written + s.lines_removed = s.lines_read)
      ∧ (∀ (s : DeduplicationStats) (out : List Nat),
        deduplicate_seekable input options = (Except.ok s, out) →
        s.lines_written + s.lines_removed = s.lines_read) := by
  intro input options
  have hbkf : (dedupKeepFirst input options).stats.lines_written
      + (dedupKeepFirst input options).stats.lines_removed
      = (dedupKeepFirst input options).stats.lines_read := by
    obtain ⟨_, h2, _, h4⟩ := dedupKeepFirst_spec input options
    omega
  have hbkl : (dedupKeepLast input options).stats.lines_written
      + (dedupKeepLast input options).stats.lines_removed
      = (dedupKeepLast input options).stats.lines_read := by
    obtain ⟨_, h2, _, h4⟩ := dedupKeepLast_spec input options
    omega
  have hbra : (dedupRemoveAll input options).stats.lines_written
      + (dedupRemoveAll input options).stats.lines_removed
      = (dedupRemoveAll input options).stats.lines_read := by
    obtain ⟨_, h2, _, h4⟩ := dedupRemoveAll_spec input options
    omega
  have hbkfd := dedupKeepFirstDisk_balance input options
  have hbkld := dedupKeepLastDisk_balance input options
  have hbrad := dedupRemoveAllDisk_balance input options
  have hmain : ∀ (s : DeduplicationStats) (out : List Nat),
      deduplicate input options = (Except.ok s, out) →
      s.lines_written + s.lines_removed = s.lines_read := by
    intro s out h
    by_cases hud : options.use_disk
    · cases hm : options.mode with
      | KeepFirst =>
        simp only [deduplicate, hud, if_true, hm, Prod.mk.injEq, Except.ok.injEq] at h
        obtain ⟨h1, _⟩ := h
        rw [← h1]
        exact hbkfd
      | KeepLast =>
        simp only [deduplicate, hud, if_true, hm, Prod.mk.injEq] at h
        simp at h
      | RemoveAll =>
        simp only [deduplicate, hud, if_true, hm, Prod.mk.injEq] at h
        simp at h
    · cases hm : options.mode with
      | KeepFirst =>
        simp only [deduplicate, hud, Bool.false_eq_true, if_false, hm, Prod.mk.injEq,
          Except.ok.injEq] at h
        obtain ⟨h1, _⟩ := h
        rw [← h1]
        exact hbkf
      | KeepLast =>
        simp only [deduplicate, hud, Bool.false_eq_true, if_false, hm, Prod.mk.injEq,
          Except.ok.injEq] at h
        obtain ⟨h1, _⟩ := h
        rw [← h1]
        exact hbkl
      | RemoveAll =>
        simp only [deduplicate, hud, Bool.false_eq_true, if_false, hm, Prod.mk.injEq,
          Except.ok.injEq] at h
        obtain ⟨h1, _⟩ := h
        rw [← h1]
        exact hbra
  refine ⟨hmain, ?_⟩
  intro s out h
  by_cases hud : options.use_disk
  · cases hm : options.mode with
    | KeepFirst =>
      simp only [deduplicate_seekable, hud, if_true, hm] at h
      exact hmain s out h
    | KeepLast =>
      simp only [deduplicate_seekable, hud, if_true, hm, Prod.mk.injEq,
        Except.ok.injEq] at h
      obtain ⟨h1, _⟩ := h
      rw [← h1]
      exact hbkld
    | RemoveAll =>
      simp only [deduplicate_seekable, hud, if_true, hm, Prod.mk.injEq,
        Except.ok.injEq] at h
      obtain ⟨h1, _⟩ := h
      rw [← h1]
      exact hbrad
  · simp only [deduplicate_seekable, hud, Bool.false_eq_true, if_false] at h
    exact hmain s out h

/-- Witness for C1 at the concrete input `"a\na\n"` under the default
configuration. -/
theorem claim_C1_stats_balance_witness :
    ({ lines_read := 2, lines_written := 1, lines_removed := 1,
       unique_lines := 1 } : DeduplicationStats).lines_written
      + ({ lines_read := 2, lines_written := 1, lines_removed := 1,
           unique_lines := 1 } : DeduplicationStats).lines_removed
      = ({ lines_read := 2, lines_written := 1, lines_removed := 1,
           unique_lines := 1 } : DeduplicationStats).lines_read :=
  (claim_C1_stats_balance [97, 10, 97, 10] defaultOptions).1
    { lines_read := 2, lines_written := 1, lines_removed := 1, unique_lines := 1 }
    [97, 10] (by decide)

/-- Claim C2: remove-all keeps no line whose derived key occurs more than
once in the input; keep-first and keep-last keep exactly one line per
distinct derived key of the input.  The last conjunct ties the declarative
kept-line lists to the engines' actual output bytes (for the plain output
format, i.e. `count` and `show_removed` off). -/
theorem claim_C2_policy_outputs :
    ∀ (input : List Nat) (options : DeduplicationOptions),
      (∀ l ∈ raKept options (readLines input) (readLines input),
        countKey options (readLines input) (keyOf options l) = 1)
      ∧ (∀ k, (kfKept options [] (readLines input)).countP
            (fun l => keyOf options l == k)
          = if 0 < countKey options (readLines input) k then 1 else 0)
      ∧ (∀ k, (klKeptRel options (readLines input)).countP
            (fun l => keyOf options l == k)
          = if 0 < countKey options (readLines input) k then 1 else 0)
      ∧ (options.count = false → options.show_removed = false →
          (dedupKeepFirst input options).output
            = flat (kfKept options [] (readLines input))
          ∧ (dedupKeepLast input options).output
            = flat (klKeptRel options (readLines input))
          ∧ (dedupRemoveAll input options).output
            = flat (raKept options (readLines input) (readLines input))) := by
  intro input options
  refine ⟨fun l hl => raKept_mem hl, ?_, ?_, ?_⟩
  · intro k
    rw [kfKept_countP options k (readLines input) []]
    simp [countKey_nil]
  · intro k
    exact klKeptRel_countP options k (readLines input)
  · intro hcnt hsr
    refine ⟨?_, ?_, ?_⟩
    · rw [(dedupKeepFirst_spec input options).1, hcnt]
      simp [kfMainOut_plain hcnt hsr]
    · rw [(dedupKeepLast_spec input options).1, klOutRel_plain hcnt hsr]
    · rw [(dedupRemoveAll_spec input options).1, raOutRel_plain hcnt hsr]

/-- Witness for C2 at the concrete input `"a\na\nb\n"` under the default
configuration, with the key of `"a"` instantiated. -/
theorem claim_C2_policy_outputs_witness :
    (dedupKeepFirst [97, 10, 97, 10, 98, 10] defaultOptions).output
      = flat (kfKept defaultOptions [] (readLines [97, 10, 97, 10, 98, 10]))
    ∧ (kfKept defaultOptions [] (readLines [97, 10, 97, 10, 98, 10])).countP
        (fun l => keyOf defaultOptions l == [97])
      = if 0 < countKey defaultOptions (readLines [97, 10, 97, 10, 98, 10]) [97]
        then 1 else 0 :=
  ⟨((claim_C2_policy_outputs [97, 10, 97, 10, 98, 10] defaultOptions).2.2.2 rfl rfl).1,
   (claim_C2_policy_outputs [97, 10, 97, 10, 98, 10] defaultOptions).2.1 [97]⟩

/-- Counterexample to claim C3 as stated: on the terminator-stripped content
`[0xFF, ' ', 'A']` with `column = 1`, the byte-level whitespace tokens are
`[[0xFF], ['A']]`, so the claim's key would be `[0xFF]`; `make_key` instead
lossily UTF-8-decodes first, turning `0xFF` into U+FFFD, and the key is its
UTF-8 encoding `[0xEF, 0xBF, 0xBD]`. -/
theorem claim_C3_counterexample :
    specByteTokens [255, 32, 65] = [[255], [65]]
    ∧ makeKey [255, 32, 65] { defaultOptions with column := some 1 } = [239, 191, 189]
    ∧ makeKey [255, 32, 65] { defaultOptions with column := some 1 } ≠ [255] :=
  ⟨by decide, by decide, by decide⟩

/-- Claim C3 amended: with `column = i` (and before any case folding),
`make_key` splits the LOSSY UTF-8 DECODING of the stripped content on
Unicode-whitespace runs; if the `i`-th token exists the key is that token's
UTF-8 re-encoding, otherwise (out of range, or 0 given) the key is the full
stripped content's original bytes. -/
theorem claim_C3_amended :
    ∀ (line : List Nat) (i : Nat) (options : DeduplicationOptions),
      options.column = some i → options.ignore_case = false →
      makeKey line options
        = if 0 < i ∧ i ≤ (splitWS (utf8Lossy line)).length
          then utf8Encode ((splitWS (utf8Lossy line)).getD (i - 1) [])
          else line := by
  intro line i options hcol hic
  have hred : makeKey line options = columnData line options := by
    simp [makeKey, make_key, hic]
  rw [hred]
  simp only [columnData, hcol]
  by_cases h1 : 0 < i
  · by_cases h2 : i ≤ (splitWS (utf8Lossy line)).length
    · simp [h1, h2]
    · simp [h1, h2]
  · simp [h1]

/-- Witness for the amended C3: column 2 of `"a b"`. -/
theorem claim_C3_amended_witness :
    makeKey [97, 32, 98] { defaultOptions with column := some 2 }
      = (if 0 < 2 ∧ 2 ≤ (splitWS (utf8Lossy [97, 32, 98])).length
         then utf8Encode ((splitWS (utf8Lossy [97, 32, 98])).getD (2 - 1) [])
         else [97, 32, 98])
    ∧ makeKey [97, 32, 98] { defaultOptions with column := some 2 } = [98] :=
  ⟨claim_C3_amended [97, 32, 98] 2 { defaultOptions with column := some 2 } rfl rfl,
   by decide⟩

/-- Claim C4, code bug: in keep-first count mode the disk engine's
count-replay builds its lookup key from the UNSTRIPPED deferred line
(src/lib.rs:500), so for the newline-terminated input `"a\n"` the lookup
misses the store (which is keyed by stripped lines) and nothing is written,
while the in-memory engine writes `"      1 a\n"`; the statistics agree. -/
theorem claim_C4_disk_count_divergence :
    (deduplicate [97, 10] { defaultOptions with count := true, use_disk := true }).2 = []
    ∧ (deduplicate [97, 10] { defaultOptions with count := true }).2
        = [32, 32, 32, 32, 32, 32, 49, 32, 97, 10]
    ∧ (deduplicate [97, 10] { defaultOptions with count := true, use_disk := true }).2
        ≠ (deduplicate [97, 10] { defaultOptions with count := true }).2
    ∧ (deduplicate [97, 10] { defaultOptions with count := true, use_disk := true }).1
        = (deduplicate [97, 10] { defaultOptions with count := true }).1 :=
  ⟨by decide, by decide, by decide, by decide⟩

/-- Claim C5: `deduplicate` rejects disk-backed keep-last and remove-all
with an `InvalidArgument` error naming the seekable-input requirement;
nothing is written to the sink, and the result does not depend on the input
(the rejection happens before any line is read). -/
theorem claim_C5_disk_two_pass_rejected :
    ∀ (input : List Nat) (options : DeduplicationOptions),
      options.use_disk = true →
      (options.mode = DeduplicationMode.KeepLast
        ∨ options.mode = DeduplicationMode.RemoveAll) →
      deduplicate input options = (Except.error (Error.InvalidArgument seekableMsg), [])
      ∧ deduplicate input options = deduplicate [] options
      ∧ seekableMsg
          = "Disk-backed KeepLast and RemoveAll modes require a "
            ++ "seekable"
            ++ " input. Use deduplicate_seekable() or provide a file." := by
  intro input options hud hm
  have h1 : deduplicate input options
      = (Except.error (Error.InvalidArgument seekableMsg), []) := by
    rcases hm with hm | hm <;> simp [deduplicate, hud, hm]
  have h2 : deduplicate [] options
      = (Except.error (Error.InvalidArgument seekableMsg), []) := by
    rcases hm with hm | hm <;> simp [deduplicate, hud, hm]
  exact ⟨h1, h1.trans h2.symm, by decide⟩

/-- Witness for C5: disk-backed keep-last on `"a\n"`. -/
theorem claim_C5_disk_two_pass_rejected_witness :
    deduplicate [97, 10]
        { defaultOptions with mode := DeduplicationMode.KeepLast, use_disk := true }
      = (Except.error (Error.InvalidArgument seekableMsg), []) :=
  (claim_C5_disk_two_pass_rejected [97, 10]
    { defaultOptions with mode := DeduplicationMode.KeepLast, use_disk := true }
    rfl (Or.inl rfl)).1

/-- Claim C6: in keep-last count mode, every kept line is prefixed with the
total number of input lines sharing its key (`klOutRel` prefixes a kept line
with `fmtCount` of `countKey` over the whole input); on `"a\nb\na\n"` the
two output lines are `"      1 b\n"` and `"      2 a\n"`, containing
`"1 b"` and `"2 a"`. -/
theorem claim_C6_keep_last_counts :
    (∀ (input : List Nat) (options : DeduplicationOptions), options.count = true →
      (dedupKeepLast input options).output
        = klOutRel options (readLines input) (readLines input))
    ∧ (dedupKeepLast [97, 10, 98, 10, 97, 10]
        { defaultOptions with mode := DeduplicationMode.KeepLast, count := true }).output
      = [32, 32, 32, 32, 32, 32, 49, 32, 98, 10,
         32, 32, 32, 32, 32, 32, 50, 32, 97, 10]
    ∧ readLines (dedupKeepLast [97, 10, 98, 10, 97, 10]
        { defaultOptions with mode := DeduplicationMode.KeepLast, count := true }).output
      = [[32, 32, 32, 32, 32, 32, 49, 32, 98, 10],
         [32, 32, 32, 32, 32, 32, 50, 32, 97, 10]]
    ∧ hasSubB [49, 32, 98] [32, 32, 32, 32, 32, 32, 49, 32, 98, 10] = true
    ∧ hasSubB [50, 32, 97] [32, 32, 32, 32, 32, 32, 50, 32, 97, 10] = true :=
  ⟨fun input options _ => (dedupKeepLast_spec input options).1,
   by decide, by decide, by decide, by decide⟩

/-- Witness for C6 at the concrete input `"a\n"`. -/
theorem claim_C6_keep_last_counts_witness :
    (dedupKeepLast [97, 10] { defaultOptions with count := true }).output
      = klOutRel { defaultOptions with count := true }
          (readLines [97, 10]) (readLines [97, 10]) :=
  claim_C6_keep_last_counts.1 [97, 10] { defaultOptions with count := true } rfl

/-- Counterexample to claim C7 as stated: for the unterminated input `"a"`,
keep-first writes the kept record back verbatim as `"a"`, which does not end
in a newline at all (and a `"\r\n"`-terminated line is likewise reproduced
verbatim, not normalized). -/
theorem claim_C7_counterexample :
    (dedupKeepFirst [97] defaultOptions).output = [97]
    ∧ (dedupKeepFirst [97] defaultOptions).stats.lines_written = 1
    ∧ (dedupKeepFirst [97] defaultOptions).output.getLast? ≠ some 10 :=
  ⟨by decide, by decide, by decide⟩

/-- Claim C7 amended: every kept record reproduces its source line's bytes
verbatim — terminator included (`\n`, `\r\n`, or none for a final
unterminated line) — with the optional 7-character right-justified count
field plus one space prepended to kept lines and the `"[REMOVED] "` marker
prepended to shown-but-dropped lines; no terminator normalization happens.
Formally, keep-first's and keep-last's outputs equal the declarative
record concatenations whose kept records are `prefix ++ line`. -/
theorem claim_C7_amended :
    ∀ (input : List Nat) (options : DeduplicationOptions),
      (dedupKeepFirst input options).output
        = kfMainOut options [] (readLines input)
          ++ (if options.count then
                kfTail options (readLines input) (kfKept options [] (readLines input))
              else [])
      ∧ (dedupKeepLast input options).output
          = klOutRel options (readLines input) (readLines input) :=
  fun input options =>
    ⟨(dedupKeepFirst_spec input options).1, (dedupKeepLast_spec input options).1⟩

/-- Counterexample to claim C8 as stated: with `count` enabled, re-running
keep-first on its own output prefixes a fresh count field, so the output
changes. -/
theorem claim_C8_counterexample :
    (dedupKeepFirst
        (dedupKeepFirst [97, 10, 97, 10] { defaultOptions with count := true }).output
        { defaultOptions with count := true }).output
      ≠ (dedupKeepFirst [97, 10, 97, 10] { defaultOptions with count := true }).output := by
  decide

/-- Claim C8 amended: keep-first is idempotent for every configuration with
`count` and `show_removed` disabled — running it a second time on its own
output yields that output unchanged. -/
theorem claim_C8_amended :
    ∀ (input : List Nat) (options : DeduplicationOptions),
      options.count = false → options.show_removed = false →
      (dedupKeepFirst (dedupKeepFirst input options).output options).output
        = (dedupKeepFirst input options).output := by
  intro input options hcnt hsr
  have h1 : (dedupKeepFirst input options).output
      = flat (kfKept options [] (readLines input)) := by
    rw [(dedupKeepFirst_spec input options).1, hcnt]
    simp [kfMainOut_plain hcnt hsr]
  have hK : readLines (flat (kfKept options [] (readLines input)))
      = kfKept options [] (readLines input) :=
    readLines_flat _
      (gc_sublist (kfKept_sublist options (readLines input) []) (readLines_good input))
  have h2 : (dedupKeepFirst (flat (kfKept options [] (readLines input))) options).output
      = flat (kfKept options [] (kfKept options [] (readLines input))) := by
    rw [(dedupKeepFirst_spec _ options).1, hcnt]
    simp [kfMainOut_plain hcnt hsr, hK]
  rw [h1, h2, kfKept_idem]

/-- Witness for the amended C8 at `"a\na\nb\n"` under the default
configuration. -/
theorem claim_C8_amended_witness :
    (dedupKeepFirst (dedupKeepFirst [97, 10, 97, 10, 98, 10] defaultOptions).output
        defaultOptions).output
      = (dedupKeepFirst [97, 10, 97, 10, 98, 10] defaultOptions).output :=
  claim_C8_amended [97, 10, 97, 10, 98, 10] defaultOptions rfl rfl

/-- Claim C9: `make_key` never fails — it returns `Ok` on every input byte
sequence and configuration; and with `ignore_case` set, when the
(possibly column-reduced) bytes are not valid UTF-8, those raw bytes are the
key, unmodified, with no error surfaced. -/
theorem claim_C9_make_key_total :
    ∀ (line : List Nat) (options : DeduplicationOptions),
      make_key line options = Except.ok (makeKey line options)
      ∧ (options.ignore_case = true → utf8Valid (columnData line options) = false →
          makeKey line options = columnData line options) := by
  intro line options
  constructor
  · by_cases hic : options.ignore_case
    · rcases hdec : utf8Decode? (columnData line options) with _ | cps
      · simp [makeKey, make_key, hic, hdec]
      · simp [makeKey, make_key, hic, hdec]
    · simp [makeKey, make_key, hic]
  · intro hic hval
    have hdec : utf8Decode? (columnData line options) = none := by
      rcases h : utf8Decode? (columnData line options) with _ | cps
      · rfl
      · rw [utf8Valid, h] at hval
        simp at hval
    simp [makeKey, make_key, hic, hdec]

/-- Witness for C9 at the invalid-UTF-8 byte `0xFF` with `ignore_case`. -/
theorem claim_C9_make_key_total_witness :
    make_key [255] { defaultOptions with ignore_case := true }
      = Except.ok (makeKey [255] { defaultOptions with ignore_case := true })
    ∧ makeKey [255] { defaultOptions with ignore_case := true }
      = columnData [255] { defaultOptions with ignore_case := true } :=
  ⟨(claim_C9_make_key_total [255] { defaultOptions with ignore_case := true }).1,
   (claim_C9_make_key_total [255] { defaultOptions with ignore_case := true }).2
     rfl (by decide)⟩

/-- Claim C10: a final input line without a trailing newline is still a
line: `readLines` yields it as a final chunk, it is counted in
`lines_read`, its key derives from its full content (stripping is the
identity on it), and when kept with `count` disabled it is written back
verbatim with no terminator appended — keep-last always keeps it, keep-first
keeps it when its key is fresh. -/
theorem claim_C10_unterminated_final_line :
    ∀ (pre last : List Nat) (options : DeduplicationOptions),
      (pre = [] ∨ pre.getLast? = some 10) → last ≠ [] → (∀ b ∈ last, b ≠ 10) →
      options.count = false →
      readLines (pre ++ last) = readLines pre ++ [last]
      ∧ stripTerm last = last
      ∧ (dedupKeepFirst (pre ++ last) options).stats.lines_read
          = (readLines pre).length + 1
      ∧ (dedupKeepLast (pre ++ last) options).stats.lines_read
          = (readLines pre).length + 1
      ∧ (∃ rest, (dedupKeepLast (pre ++ last) options).output = rest ++ last)
      ∧ (countKey options (readLines pre) (keyOf options last) = 0 →
          ∃ rest, (dedupKeepFirst (pre ++ last) options).output = rest ++ last) := by
  intro pre last options hpre hne hnl hcnt
  have hsplit := readLines_split pre last hpre hne hnl
  refine ⟨hsplit, stripTerm_of_noNl hnl, ?_, ?_, ?_, ?_⟩
  · rw [(dedupKeepFirst_spec _ options).2.1, hsplit]
    simp
  · rw [(dedupKeepLast_spec _ options).2.1, hsplit]
    simp
  · rw [(dedupKeepLast_spec _ options).1, hsplit]
    obtain ⟨rest, hrest⟩ := klOutRel_ends options (readLines pre ++ [last]) last
      (readLines pre)
    refine ⟨rest, ?_⟩
    rw [hrest]
    simp [hcnt]
  · intro hfresh
    rw [(dedupKeepFirst_spec _ options).1, hsplit, hcnt]
    rw [kfMainOut_append options (readLines pre) [last] []]
    refine ⟨kfMainOut options [] (readLines pre), ?_⟩
    have hlast : kfMainOut options ([] ++ readLines pre) [last] = last := by
      simp only [List.nil_append, kfMainOut, if_pos hfresh, hcnt, Bool.false_eq_true,
        if_false]
      simp
    rw [hlast]
    simp

/-- Witness for C10 with `pre = "a\n"` and `last = "b"` under the default
configuration. -/
theorem claim_C10_unterminated_final_line_witness :
    readLines ([97, 10] ++ [98]) = readLines [97, 10] ++ [[98]]
    ∧ (dedupKeepFirst ([97, 10] ++ [98]) defaultOptions).stats.lines_read
        = (readLines [97, 10]).length + 1 :=
  ⟨(claim_C10_unterminated_final_line [97, 10] [98] defaultOptions
      (Or.inr (by decide)) (by decide) (by decide) rfl).1,
   (claim_C10_unterminated_final_line [97, 10] [98] defaultOptions
      (Or.inr (by decide)) (by decide) (by decide) rfl).2.2.1⟩

end Uniqr
